import Mathlib

/-!
# Verification of the Kuyari-Bot conversation cache and streaming assembler

Shallow embedding of the core of `kuyaribot.py` (with its rewritten variant
`cogs/chat.py`): the `MsgNode` cache with per-node locking, the reply-chain
walk that builds the conversation history (`on_message`, lines 339-454), the
node-cache eviction step (lines 568-572), and the streaming-response assembly
loop (lines 479-566).

Conventions:
- Discord message identifiers are natural numbers (snowflakes).
- Python strings are Lean `String`s; `len` is `String.length` (both count
  characters), slicing `s[:n]` is `String.take`.
- The `msg_nodes` dict is an association list `Cache` with distinct keys.
- `datetime.now().timestamp()` values are rationals (only compared and
  subtracted by the code, never used in float-specific ways).
- External effects (attachment fetches, parent-message resolution, the
  backend delta stream, Discord sends/edits) are inputs: an `Env` oracle for
  the chain walk, a list of stream chunks for the assembler.
-/

set_option maxRecDepth 4000

namespace Kuyari

/-- `STREAMING_INDICATOR = " ⚪"` (two characters). -/
def STREAMING_INDICATOR : String := " ⚪"

/-- `EDIT_DELAY_SECONDS = 1` (seconds; compared against timestamp differences). -/
def EDIT_DELAY_SECONDS : ℚ := 1

/-- `MAX_MESSAGE_NODES = 500`. -/
def MAX_MESSAGE_NODES : Nat := 500

/-- `max_message_length = 2000 if use_plain_responses else (4096 - len(STREAMING_INDICATOR))`. -/
def max_message_length (use_plain_responses : Bool) : Nat :=
  if use_plain_responses then 2000 else 4096 - STREAMING_INDICATOR.length

/-- `role: Literal["user", "assistant"]`. -/
inductive Role
  | user
  | assistant
  deriving DecidableEq

/-- The dataclass `MsgNode` (minus the `asyncio.Lock`, which is modelled
explicitly in the concurrency protocols below; `parent_msg` stores the parent
message's identifier, since a Discord `Message` object is identified by its
snowflake in this embedding). Defaults are the dataclass defaults. -/
structure MsgNode where
  text : Option String := none
  images : List String := []
  role : Role := .assistant
  user_id : Option Nat := none
  has_bad_attachments : Bool := false
  fetch_parent_failed : Bool := false
  parent_msg : Option Nat := none
  deriving DecidableEq

/-- The `msg_nodes` dict: an association list keyed by message id. -/
abbrev Cache := List (Nat × MsgNode)

/-- The keys of the cache (`msg_nodes.keys()`). -/
def keys (c : Cache) : List Nat := c.map Prod.fst

/-- Dict lookup. -/
def findNode (c : Cache) (k : Nat) : Option MsgNode :=
  match c with
  | [] => none
  | (k', n) :: rest => if k' = k then some n else findNode rest k

/-- `msg_nodes.setdefault(k, MsgNode())`: insert a fresh empty node unless the
key is present. -/
def setdefault (c : Cache) (k : Nat) : Cache :=
  match findNode c k with
  | some _ => c
  | none => (k, {}) :: c

/-- Store a node under a key (overwriting the existing entry, as mutating the
node object under that key does). -/
def storeNode (c : Cache) (k : Nat) (n : MsgNode) : Cache :=
  match c with
  | [] => [(k, n)]
  | (k', n') :: rest => if k' = k then (k, n) :: rest else (k', n') :: storeNode rest k n

/-- `msg_nodes.pop(k, None)`: remove the entry with key `k` (with distinct
keys, filtering is exactly removing that one entry). -/
def popKey (c : Cache) (k : Nat) : Cache :=
  c.filter (fun kv => kv.1 != k)

/-- Lines 568-572: `if (num_nodes := len(msg_nodes)) > MAX_MESSAGE_NODES:
for msg_id in sorted(msg_nodes.keys())[: num_nodes - MAX_MESSAGE_NODES]:
msg_nodes.pop(msg_id, None)`.  (Each pop briefly takes the node's lock; the
lock protocol is modelled separately, and by the time this loop runs in a
cycle every walk/response lock has been released.) -/
def evictOnce (c : Cache) : Cache :=
  let num_nodes := c.length
  if MAX_MESSAGE_NODES < num_nodes then
    ((List.insertionSort (· ≤ ·) (keys c)).take (num_nodes - MAX_MESSAGE_NODES)).foldl popKey c
  else c

/-! ### Lemmas about eviction -/

theorem keys_popKey (c : Cache) (k : Nat) :
    keys (popKey c k) = (keys c).filter (fun a => a != k) := by
  induction c with
  | nil => rfl
  | cons kv rest ih =>
    unfold popKey keys at ih ⊢
    rw [List.filter_cons, List.map_cons, List.filter_cons]
    cases h : (kv.1 != k) <;> simp [h, ih]

theorem keys_foldl_popKey (ds : List Nat) (c : Cache) :
    keys (ds.foldl popKey c) = (keys c).filter (fun a => decide (a ∉ ds)) := by
  induction ds generalizing c with
  | nil => simp
  | cons d ds ih =>
    rw [List.foldl_cons, ih, keys_popKey, List.filter_filter]
    apply List.filter_congr
    intro a _
    by_cases h1 : a ∈ ds <;> by_cases h2 : a = d <;> simp [h1, h2]

/-- `sorted(msg_nodes.keys())`. -/
def sortedKeys (c : Cache) : List Nat := List.insertionSort (· ≤ ·) (keys c)

theorem sortedKeys_perm (c : Cache) : List.Perm (sortedKeys c) (keys c) :=
  List.perm_insertionSort _ _

theorem sortedKeys_sorted (c : Cache) : (sortedKeys c).Sorted (· ≤ ·) :=
  List.sorted_insertionSort _ _

theorem keys_evictOnce_perm (c : Cache) (h : (keys c).Nodup) :
    List.Perm (keys (evictOnce c)) ((sortedKeys c).drop (c.length - MAX_MESSAGE_NODES)) := by
  have hperm : List.Perm (sortedKeys c) (keys c) := sortedKeys_perm c
  have hnds : (sortedKeys c).Nodup := hperm.nodup_iff.mpr h
  unfold evictOnce
  by_cases hlen : MAX_MESSAGE_NODES < c.length
  · simp only [hlen, if_true]
    set t := c.length - MAX_MESSAGE_NODES with ht
    set ds := (sortedKeys c).take t with hds
    have hsplit : ds ++ (sortedKeys c).drop t = sortedKeys c :=
      List.take_append_drop t _
    rw [keys_foldl_popKey]
    have h2 : (sortedKeys c).filter (fun a => decide (a ∉ ds)) =
        (sortedKeys c).drop t := by
      have hdisj : List.Disjoint ds ((sortedKeys c).drop t) := by
        apply List.disjoint_of_nodup_append
        rw [hsplit]; exact hnds
      conv_lhs => rw [← hsplit]
      rw [List.filter_append]
      have hA : ds.filter (fun a => decide (a ∉ ds)) = [] := by
        rw [List.filter_eq_nil_iff]
        intro a ha
        simp [ha]
      have hB : ((sortedKeys c).drop t).filter
          (fun a => decide (a ∉ ds)) = (sortedKeys c).drop t := by
        rw [List.filter_eq_self]
        intro a ha
        simp only [decide_eq_true_eq]
        exact fun hmem => hdisj hmem ha
      rw [hA, hB, List.nil_append]
    have h1 := (hperm.symm).filter (fun a => decide (a ∉ ds))
    rw [h2] at h1
    exact h1
  · simp only [hlen, if_false]
    have ht0 : c.length - MAX_MESSAGE_NODES = 0 :=
      Nat.sub_eq_zero_of_le (Nat.le_of_not_lt hlen)
    rw [ht0, List.drop_zero]
    exact hperm.symm

theorem length_keys (c : Cache) : (keys c).length = c.length := List.length_map _ _

/-- C2 helper: the cache size after eviction. -/
theorem evictOnce_length_le (c : Cache) (h : (keys c).Nodup) :
    (evictOnce c).length ≤ MAX_MESSAGE_NODES := by
  have hp := keys_evictOnce_perm c h
  have hl := hp.length_eq
  rw [length_keys, List.length_drop] at hl
  have hs : (sortedKeys c).length = c.length := by
    rw [(sortedKeys_perm c).length_eq, length_keys]
  rw [hs] at hl
  omega

/-- C2 helper: every evicted key is strictly below every retained key. -/
theorem evictOnce_retains_largest (c : Cache) (h : (keys c).Nodup) :
    ∀ a ∈ keys c, a ∉ keys (evictOnce c) → ∀ b ∈ keys (evictOnce c), a < b := by
  intro a ha hnot b hb
  have hperm : List.Perm (sortedKeys c) (keys c) := sortedKeys_perm c
  have hnds : (sortedKeys c).Nodup := hperm.nodup_iff.mpr h
  have hp := keys_evictOnce_perm c h
  set t := c.length - MAX_MESSAGE_NODES with ht
  have hsplit : (sortedKeys c).take t ++ (sortedKeys c).drop t = sortedKeys c :=
    List.take_append_drop t _
  have hbdrop : b ∈ (sortedKeys c).drop t := hp.mem_iff.mp hb
  have hadrop : a ∉ (sortedKeys c).drop t := fun hx => hnot (hp.mem_iff.mpr hx)
  have hasort : a ∈ sortedKeys c := hperm.mem_iff.mpr ha
  have hatake : a ∈ (sortedKeys c).take t := by
    rcases (List.mem_append.mp (hsplit ▸ hasort)) with h1 | h1
    · exact h1
    · exact absurd h1 hadrop
  have hsorted : ((sortedKeys c).take t ++ (sortedKeys c).drop t).Pairwise (· ≤ ·) := by
    rw [hsplit]; exact sortedKeys_sorted c
  have hle : a ≤ b := (List.pairwise_append.mp hsorted).2.2 a hatake b hbdrop
  have hne : a ≠ b := by
    intro hab
    exact hadrop (hab ▸ hbdrop)
  exact lt_of_le_of_ne hle hne

/-! ### The message environment and node population (lines 339-431)

The walk reads the Discord world through an oracle `Env`: for each message
identifier, the data the population step extracts from the `discord.Message`
and its attachment/embed fetches, plus the outcome of the parent-resolution
`try` block (explicit reply reference, thread starter, or the
previous-message heuristic; `discord.NotFound`/`discord.HTTPException` is
`failed`). -/

/-- Outcome of the parent-resolution block (lines 410-431). -/
inductive ParentRes
  | noParent
  | found (pid : Nat)
  | failed
  deriving DecidableEq

/-- Per-message data consumed by the population step:
- `cleanedContent`: `curr_msg.content.removeprefix(bot.user.mention).lstrip()`;
- `embedTexts`: for each embed, the joined non-empty `(title, description,
  footer.text)` (an embed with none of those contributes `""`);
- `attachmentTexts`: fetched bodies of the `text/*` attachments, in order;
- `attachmentImages` / `embedImages`: data URIs built from the `image/*`
  attachments and the image-bearing embed URLs, in order;
- `totalAttachments` / `goodAttachments`: `len(curr_msg.attachments)` and
  `len(good_attachments)`;
- `authorIsSelf`: `curr_msg.author == discord_bot.user`;
- `authorId`: `curr_msg.author.id`;
- `parent`: outcome of the parent-resolution block. -/
structure MsgInfo where
  cleanedContent : String := ""
  embedTexts : List String := []
  attachmentTexts : List String := []
  attachmentImages : List String := []
  embedImages : List String := []
  totalAttachments : Nat := 0
  goodAttachments : Nat := 0
  authorIsSelf : Bool := false
  authorId : Nat := 0
  parent : ParentRes := .noParent
  deriving DecidableEq

/-- The world: message data per identifier. -/
abbrev Env := Nat → MsgInfo

/-- Lines 343-431: the `if curr_node.text == None:` population body.  Joins
cleaned content, per-embed text and text-attachment bodies with newlines
(the cleaned content only when non-empty), collects attachment and embed
images, sets role/user_id from the author, flags dropped attachments, and
records the parent resolution (`fetch_parent_failed` on error, in which case
`parent_msg` stays `None`). -/
def populate (env : Env) (cid : Nat) : MsgNode :=
  let i := env cid
  let textParts :=
    (if i.cleanedContent ≠ "" then [i.cleanedContent] else [])
      ++ i.embedTexts ++ i.attachmentTexts
  let role : Role := if i.authorIsSelf then .assistant else .user
  { text := some (String.intercalate "\n" textParts)
    images := i.attachmentImages ++ i.embedImages
    role := role
    user_id := if role = .user then some i.authorId else none
    has_bad_attachments := decide (i.goodAttachments < i.totalAttachments)
    fetch_parent_failed := decide (i.parent = .failed)
    parent_msg := match i.parent with
      | .found p => some p
      | _ => none }

/-! ### The chain walk (lines 334-454) -/

/-- One entry of `messages`: `dict(content=content, role=curr_node.role)` with
an optional `name`.  `content` is the optional `input_text` part (present iff
the truncated text is non-empty) followed by the truncated image parts. -/
structure Turn where
  role : Role
  text : Option String
  images : List String
  name : Option Nat
  deriving DecidableEq

/-- The `user_warnings` strings, keyed by their parameters (each constructor
renders to a distinct warning string, so deduplication by constructor equality
matches deduplication of the rendered strings in the Python `set`). -/
inductive Warning
  | maxTextExceeded (maxText : Nat)
  | maxImagesExceeded (maxImages : Nat)
  | unsupportedAttachments
  | onlyUsingLast (count : Nat)
  deriving DecidableEq

/-- `user_warnings.add(w)`: a set, modelled as a duplicate-free list in
insertion order. -/
def addWarning (ws : List Warning) (w : Warning) : List Warning :=
  if w ∈ ws then ws else ws ++ [w]

/-- The configured limits of the walk plus `accept_usernames`. -/
structure WalkParams where
  maxText : Nat := 100000
  maxImages : Nat := 5
  maxMessages : Nat := 25
  acceptUsernames : Bool := false
  deriving DecidableEq

/-- State carried across loop iterations.  `visited`, `srcIds` and `popCount`
are instrumentation: the sequence of loop iterations (message ids processed),
the ids of the messages that contributed a turn (in traversal order), and the
number of node populations performed. -/
structure WalkState where
  cache : Cache
  messages : List Turn
  warnings : List Warning
  visited : List Nat
  srcIds : List Nat
  popCount : Nat
  deriving DecidableEq

/-- Lines 433-436: the composed `content`, split into its optional
`input_text` part (`curr_node.text[:max_text]`, kept iff non-empty) and
`curr_node.images[:max_images]`. -/
def truncText (p : WalkParams) (n : MsgNode) : Option String :=
  let tText := (n.text.getD "").take p.maxText
  if tText = "" then none else some tText

def truncImages (p : WalkParams) (n : MsgNode) : List String :=
  n.images.take p.maxImages

/-- Line 438 `if content:` — a turn is appended iff the composed content list
is non-empty. -/
def stepHasContent (p : WalkParams) (n : MsgNode) : Bool :=
  (truncText p n).isSome || !(truncImages p n).isEmpty

/-- Lines 439-441: the appended `message` dict. -/
def stepTurn (p : WalkParams) (n : MsgNode) : Turn :=
  ⟨n.role, truncText p n, truncImages p n,
    if p.acceptUsernames && n.user_id.isSome then n.user_id else none⟩

/-- Lines 445-452: the warning additions of one iteration (`msgsLen` is
`len(messages)` after the possible append). -/
def stepWarnings (p : WalkParams) (n : MsgNode) (msgsLen : Nat) (ws : List Warning) :
    List Warning :=
  let ws := if p.maxText < (n.text.getD "").length then
    addWarning ws (.maxTextExceeded p.maxText) else ws
  let ws := if p.maxImages < n.images.length then
    addWarning ws (.maxImagesExceeded p.maxImages) else ws
  let ws := if n.has_bad_attachments then addWarning ws .unsupportedAttachments else ws
  if n.fetch_parent_failed || (n.parent_msg.isSome && msgsLen == p.maxMessages) then
    addWarning ws (.onlyUsingLast msgsLen)
  else ws

/-- One iteration of the `while` loop (lines 340-454) at message `cid`:
`setdefault`, populate under the node's lock if `text` is `None`, build the
turn from the node's (truncated) fields, add warnings, and advance to the
parent.  Returns the new state and `curr_node.parent_msg`. -/
def walkStep (env : Env) (p : WalkParams) (cid : Nat) (st : WalkState) :
    WalkState × Option Nat :=
  let c1 := setdefault st.cache cid
  let node0 := (findNode c1 cid).getD {}
  let needsPop := node0.text = none
  let node := if needsPop then populate env cid else node0
  let c2 := if needsPop then storeNode c1 cid node else c1
  let msgs := if stepHasContent p node then st.messages ++ [stepTurn p node] else st.messages
  let srcs := if stepHasContent p node then st.srcIds ++ [cid] else st.srcIds
  ({ cache := c2, messages := msgs, warnings := stepWarnings p node msgs.length st.warnings,
     visited := st.visited ++ [cid], srcIds := srcs,
     popCount := st.popCount + (if needsPop then 1 else 0) }, node.parent_msg)

/-- The `while curr_msg != None and len(messages) < max_messages` loop, with
fuel (the Python loop has no intrinsic bound: an environment that keeps
yielding parents with empty content makes it run past `max_messages`
iterations, so termination is a theorem, not a given). -/
def walkAux (env : Env) (p : WalkParams) : Nat → Option Nat → WalkState → Option WalkState
  | _, none, st => some st
  | 0, some _, st => if st.messages.length < p.maxMessages then none else some st
  | fuel + 1, some cid, st =>
    if st.messages.length < p.maxMessages then
      let r := walkStep env p cid st
      walkAux env p fuel r.2 r.1
    else some st

def initWalkState (c : Cache) : WalkState :=
  { cache := c, messages := [], warnings := [], visited := [], srcIds := [], popCount := 0 }

/-- The whole chain walk starting from the triggering message. -/
def buildHistory (env : Env) (p : WalkParams) (fuel : Nat) (leafId : Nat) (c : Cache) :
    Option WalkState :=
  walkAux env p fuel (some leafId) (initWalkState c)

/-- The conversation sent to the backend is `messages[::-1]` (line 490; the
system prompt, not being a user/assistant turn, is appended after the turns
and is not part of this list). -/
def sentTurns (r : WalkState) : List Turn := r.messages.reverse

/-- Traversal-order source ids reversed into sending order. -/
def sentSrcIds (r : WalkState) : List Nat := r.srcIds.reverse

/-! ### Lookup lemmas for the cache operations -/

theorem findNode_setdefault (c : Cache) (k k' : Nat) :
    findNode (setdefault c k) k' =
      if k' = k then some ((findNode c k).getD {}) else findNode c k' := by
  unfold setdefault
  cases h : findNode c k with
  | some n =>
    by_cases hk : k' = k
    · rw [if_pos hk, hk, h]
      rfl
    · rw [if_neg hk]
  | none =>
    show findNode ((k, {}) :: c) k' = _
    by_cases hk : k' = k
    · subst hk
      simp [findNode, h]
    · simp [findNode, hk, Ne.symm hk]

theorem findNode_storeNode (c : Cache) (k k' : Nat) (n : MsgNode) :
    findNode (storeNode c k n) k' = if k' = k then some n else findNode c k' := by
  induction c with
  | nil =>
    by_cases hk : k' = k
    · subst hk
      simp [storeNode, findNode]
    · simp [storeNode, findNode, hk, Ne.symm hk]
  | cons kv rest ih =>
    obtain ⟨a, b⟩ := kv
    by_cases hak : a = k
    · subst hak
      by_cases hk : k' = a
      · subst hk
        simp [storeNode, findNode]
      · simp [storeNode, findNode, hk, Ne.symm hk]
    · by_cases hak' : a = k'
      · subst hak'
        simp [storeNode, findNode, hak, fun hh : a = k => hak hh]
      · simp [storeNode, findNode, hak, hak', ih]

/-! ### Strictly decreasing parent relations (C3, C6) -/

/-- The environment only ever resolves parents that are strictly earlier
messages (the "acyclic, strictly key-decreasing parent relation" of the
claim). -/
def ParentsDecreasing (env : Env) : Prop :=
  ∀ cid pid, (env cid).parent = .found pid → pid < cid

/-- Every cached node's parent pointer is strictly below its key. -/
def CacheDecreasing (c : Cache) : Prop :=
  ∀ k n, findNode c k = some n → ∀ pid, n.parent_msg = some pid → pid < k

theorem cacheDecreasing_nil : CacheDecreasing [] := by
  intro k n h
  simp [findNode] at h

theorem cacheDecreasing_setdefault (c : Cache) (k : Nat) (hc : CacheDecreasing c) :
    CacheDecreasing (setdefault c k) := by
  intro k' n hfind pid hp
  rw [findNode_setdefault] at hfind
  by_cases hk : k' = k
  · rw [if_pos hk] at hfind
    cases hfn : findNode c k with
    | some m =>
      rw [hfn] at hfind
      have hmn : m = n := by
        simpa using hfind
      subst hmn
      exact hk ▸ hc k m hfn pid hp
    | none =>
      rw [hfn] at hfind
      have h0 : ({} : MsgNode) = n := by
        simpa using hfind
      rw [← h0] at hp
      cases hp
  · rw [if_neg hk] at hfind
    exact hc k' n hfind pid hp

theorem cacheDecreasing_storeNode (c : Cache) (k : Nat) (n : MsgNode)
    (hc : CacheDecreasing c) (hn : ∀ pid, n.parent_msg = some pid → pid < k) :
    CacheDecreasing (storeNode c k n) := by
  intro k' m hfind pid hp
  rw [findNode_storeNode] at hfind
  by_cases hk : k' = k
  · rw [if_pos hk] at hfind
    have hnm : n = m := by
      simpa using hfind
    subst hnm
    exact hk ▸ hn pid hp
  · rw [if_neg hk] at hfind
    exact hc k' m hfind pid hp

theorem populate_parent_lt (env : Env) (cid : Nat) (henv : ParentsDecreasing env) :
    ∀ pid, (populate env cid).parent_msg = some pid → pid < cid := by
  intro pid hp
  unfold populate at hp
  simp only at hp
  cases hpar : (env cid).parent with
  | noParent => rw [hpar] at hp; cases hp
  | failed => rw [hpar] at hp; cases hp
  | found q =>
    rw [hpar] at hp
    have : q = pid := by
      simpa using hp
    exact this ▸ henv cid q hpar

/-- The node read (and, if needed, populated) by `walkStep`. -/
def stepNode (env : Env) (cid : Nat) (c : Cache) : MsgNode :=
  let node0 := (findNode (setdefault c cid) cid).getD {}
  if node0.text = none then populate env cid else node0

theorem walkStep_eq (env : Env) (p : WalkParams) (cid : Nat) (st : WalkState) :
    walkStep env p cid st =
      (let node := stepNode env cid st.cache
      let c1 := setdefault st.cache cid
      let needsPop := ((findNode c1 cid).getD {}).text = none
      let c2 := if needsPop then storeNode c1 cid node else c1
      let msgs := if stepHasContent p node then st.messages ++ [stepTurn p node] else st.messages
      let srcs := if stepHasContent p node then st.srcIds ++ [cid] else st.srcIds
      ({ cache := c2, messages := msgs, warnings := stepWarnings p node msgs.length st.warnings,
         visited := st.visited ++ [cid], srcIds := srcs,
         popCount := st.popCount + (if needsPop then 1 else 0) }, node.parent_msg)) := by
  unfold walkStep stepNode
  by_cases h : ((findNode (setdefault st.cache cid) cid).getD {}).text = none <;> simp [h]

theorem stepNode_parent_lt (env : Env) (cid : Nat) (c : Cache)
    (henv : ParentsDecreasing env) (hc : CacheDecreasing c) :
    ∀ pid, (stepNode env cid c).parent_msg = some pid → pid < cid := by
  intro pid hp
  unfold stepNode at hp
  by_cases h : ((findNode (setdefault c cid) cid).getD {}).text = none
  · rw [if_pos h] at hp
    exact populate_parent_lt env cid henv pid hp
  · rw [if_neg h] at hp
    have hfind : findNode (setdefault c cid) cid = some ((findNode c cid).getD {}) := by
      rw [findNode_setdefault, if_pos rfl]
    have hcd := cacheDecreasing_setdefault c cid hc
    have := hcd cid ((findNode c cid).getD {}) hfind pid
    apply this
    rw [hfind] at hp
    simpa using hp

theorem walkStep_cache_decreasing (env : Env) (p : WalkParams) (cid : Nat) (st : WalkState)
    (henv : ParentsDecreasing env) (hc : CacheDecreasing st.cache) :
    CacheDecreasing (walkStep env p cid st).1.cache := by
  rw [walkStep_eq]
  dsimp only
  by_cases h : ((findNode (setdefault st.cache cid) cid).getD {}).text = none
  · rw [if_pos h]
    apply cacheDecreasing_storeNode
    · exact cacheDecreasing_setdefault st.cache cid hc
    · exact stepNode_parent_lt env cid st.cache henv hc
  · rw [if_neg h]
    exact cacheDecreasing_setdefault st.cache cid hc

theorem walkStep_parent (env : Env) (p : WalkParams) (cid : Nat) (st : WalkState) :
    (walkStep env p cid st).2 = (stepNode env cid st.cache).parent_msg := by
  rw [walkStep_eq]

theorem walkStep_visited (env : Env) (p : WalkParams) (cid : Nat) (st : WalkState) :
    (walkStep env p cid st).1.visited = st.visited ++ [cid] := by
  rw [walkStep_eq]

theorem walkStep_messages_le (env : Env) (p : WalkParams) (cid : Nat) (st : WalkState) :
    (walkStep env p cid st).1.messages.length ≤ st.messages.length + 1 := by
  rw [walkStep_eq]
  dsimp only
  by_cases h : stepHasContent p (stepNode env cid st.cache) <;> simp [h]

theorem walkStep_srcIds (env : Env) (p : WalkParams) (cid : Nat) (st : WalkState) :
    (walkStep env p cid st).1.srcIds = st.srcIds ∨
      (walkStep env p cid st).1.srcIds = st.srcIds ++ [cid] := by
  rw [walkStep_eq]
  dsimp only
  by_cases h : stepHasContent p (stepNode env cid st.cache)
  · right; simp [h]
  · left; simp [h]

/-- Master lemma: under a strictly decreasing parent relation (for the
environment and the pre-existing cache), the loop completes given fuel
exceeding the current id, visits strictly decreasing ids, emits turns for
strictly decreasing source ids, and never exceeds `max_messages` turns. -/
theorem walkAux_total (env : Env) (p : WalkParams) (henv : ParentsDecreasing env) :
    ∀ (fuel : Nat) (curr : Option Nat) (st : WalkState),
      CacheDecreasing st.cache →
      (∀ cid, curr = some cid → cid < fuel) →
      st.messages.length ≤ p.maxMessages →
      st.visited.Pairwise (· > ·) →
      st.srcIds.Pairwise (· > ·) →
      (∀ cid, curr = some cid → ∀ v ∈ st.visited, cid < v) →
      (∀ cid, curr = some cid → ∀ v ∈ st.srcIds, cid < v) →
      ∃ r, walkAux env p fuel curr st = some r ∧
        r.visited.Pairwise (· > ·) ∧
        r.srcIds.Pairwise (· > ·) ∧
        r.messages.length ≤ p.maxMessages := by
  intro fuel
  induction fuel with
  | zero =>
    intro curr st hc hfuel hlen hvis hsrc hvfut hsfut
    cases curr with
    | none => exact ⟨st, rfl, hvis, hsrc, hlen⟩
    | some cid => exact absurd (hfuel cid rfl) (by omega)
  | succ f ih =>
    intro curr st hc hfuel hlen hvis hsrc hvfut hsfut
    cases curr with
    | none => exact ⟨st, rfl, hvis, hsrc, hlen⟩
    | some cid =>
      by_cases hlt : st.messages.length < p.maxMessages
      · have hstep : walkAux env p (f + 1) (some cid) st
            = walkAux env p f (walkStep env p cid st).2 (walkStep env p cid st).1 := by
          show (if st.messages.length < p.maxMessages then
              let r := walkStep env p cid st
              walkAux env p f r.2 r.1
            else some st) = _
          rw [if_pos hlt]
        have hparent : ∀ pid, (walkStep env p cid st).2 = some pid → pid < cid := by
          rw [walkStep_parent]
          exact stepNode_parent_lt env cid st.cache henv hc
        have hvis' : (walkStep env p cid st).1.visited.Pairwise (· > ·) := by
          rw [walkStep_visited]
          rw [List.pairwise_append]
          refine ⟨hvis, List.pairwise_singleton _ _, ?_⟩
          intro v hv b hb
          rw [List.mem_singleton] at hb
          exact hb ▸ hvfut cid rfl v hv
        have hsrc' : (walkStep env p cid st).1.srcIds.Pairwise (· > ·) := by
          rcases walkStep_srcIds env p cid st with hcase | hcase
          · rw [hcase]; exact hsrc
          · rw [hcase, List.pairwise_append]
            refine ⟨hsrc, List.pairwise_singleton _ _, ?_⟩
            intro v hv b hb
            rw [List.mem_singleton] at hb
            exact hb ▸ hsfut cid rfl v hv
        have hvfut' : ∀ cid', (walkStep env p cid st).2 = some cid' →
            ∀ v ∈ (walkStep env p cid st).1.visited, cid' < v := by
          intro cid' hcid' v hv
          rw [walkStep_visited] at hv
          rcases List.mem_append.mp hv with hv | hv
          · exact lt_trans (hparent cid' hcid') (hvfut cid rfl v hv)
          · rw [List.mem_singleton] at hv
            exact hv ▸ hparent cid' hcid'
        have hsfut' : ∀ cid', (walkStep env p cid st).2 = some cid' →
            ∀ v ∈ (walkStep env p cid st).1.srcIds, cid' < v := by
          intro cid' hcid' v hv
          rcases walkStep_srcIds env p cid st with hcase | hcase
          · rw [hcase] at hv
            exact lt_trans (hparent cid' hcid') (hsfut cid rfl v hv)
          · rw [hcase] at hv
            rcases List.mem_append.mp hv with hv | hv
            · exact lt_trans (hparent cid' hcid') (hsfut cid rfl v hv)
            · rw [List.mem_singleton] at hv
              exact hv ▸ hparent cid' hcid'
        obtain ⟨r, hr, hr1, hr2, hr3⟩ := ih (walkStep env p cid st).2 (walkStep env p cid st).1
          (walkStep_cache_decreasing env p cid st henv hc)
          (fun cid' hcid' => by
            have h1 := hparent cid' hcid'
            have h2 := hfuel cid rfl
            omega)
          (by
            have := walkStep_messages_le env p cid st
            omega)
          hvis' hsrc' hvfut' hsfut'
        exact ⟨r, hstep.trans hr, hr1, hr2, hr3⟩
      · refine ⟨st, ?_, hvis, hsrc, hlen⟩
        show (if st.messages.length < p.maxMessages then
            let r := walkStep env p cid st
            walkAux env p f r.2 r.1
          else some st) = _
        rw [if_neg hlt]

/-! ### Claim C2: eviction bound -/

/-- C2: after the eviction step that ends a message-processing cycle, the
node cache holds at most `MAX_MESSAGE_NODES` entries; the retained keys are a
permutation of the ascending-sorted key list with its lowest
`len - MAX_MESSAGE_NODES` keys removed (i.e. exactly the `MAX_MESSAGE_NODES`
numerically largest keys present, removed in ascending-key order), and every
evicted key is strictly smaller than every retained key. -/
theorem eviction_bound (c : Cache) (h : (keys c).Nodup) :
    (evictOnce c).length ≤ MAX_MESSAGE_NODES ∧
    List.Perm (keys (evictOnce c)) ((sortedKeys c).drop (c.length - MAX_MESSAGE_NODES)) ∧
    ∀ a ∈ keys c, a ∉ keys (evictOnce c) → ∀ b ∈ keys (evictOnce c), a < b :=
  ⟨evictOnce_length_le c h, keys_evictOnce_perm c h, evictOnce_retains_largest c h⟩

/-- The spec scenario: 600 cached messages with keys 1..600. -/
def cache600 : Cache := (List.range 600).map (fun k => (k + 1, {}))

theorem cache600_nodup : (keys cache600).Nodup := by
  have h1 : keys cache600 = (List.range 600).map (fun k => k + 1) := by
    simp [cache600, keys, List.map_map]
  rw [h1]
  exact List.Nodup.map (fun a b hab => by omega) (List.nodup_range 600)

/-- Witness for C2 at the spec's 600-message scenario. -/
theorem eviction_bound_witness :
    (keys cache600).Nodup ∧
    ((evictOnce cache600).length ≤ MAX_MESSAGE_NODES ∧
      List.Perm (keys (evictOnce cache600))
        ((sortedKeys cache600).drop (cache600.length - MAX_MESSAGE_NODES)) ∧
      ∀ a ∈ keys cache600, a ∉ keys (evictOnce cache600) →
        ∀ b ∈ keys (evictOnce cache600), a < b) :=
  ⟨cache600_nodup, eviction_bound cache600 cache600_nodup⟩

/-! ### Claim C3: chain termination -/

/-- C3 (amended): under a strictly key-decreasing parent relation (both for
the environment's resolutions and for parent pointers already cached), the
walk from `leaf` completes within any fuel exceeding `leaf` — so `leaf + 1`
loop iterations always suffice — never revisits a key, and appends at most
`max_messages` turns.  (The loop-iteration count is bounded by the chain
length, not by `max_messages`, and the walker performs no
identifier-ordering check on resolved parents; see the counterexample.) -/
theorem chain_walk_terminates (env : Env) (p : WalkParams) (leaf : Nat) (c : Cache)
    (fuel : Nat) (henv : ParentsDecreasing env) (hc : CacheDecreasing c)
    (hfuel : leaf < fuel) :
    ∃ r, buildHistory env p fuel leaf c = some r ∧
      r.visited.Nodup ∧ r.messages.length ≤ p.maxMessages := by
  obtain ⟨r, hr, hvis, _, hlen⟩ := walkAux_total env p henv fuel (some leaf) (initWalkState c)
    hc
    (fun cid hcid => by cases hcid; exact hfuel)
    (by simp [initWalkState])
    (by simp [initWalkState])
    (by simp [initWalkState])
    (by simp [initWalkState])
    (by simp [initWalkState])
  exact ⟨r, hr, hvis.imp (fun hab => Nat.ne_of_gt hab), hlen⟩

/-- Small text limit for concrete runs (`max_text` is configuration; the
default 100000 only makes kernel evaluation of `String.take` needlessly
deep). -/
def p3 : WalkParams := { maxText := 8, maxMessages := 2 }

def pUp : WalkParams := { maxText := 8 }

/-- A three-message chain 3 → 2 → 1 whose messages carry no content. -/
def env3 : Env := fun cid =>
  if cid = 3 then { parent := .found 2 }
  else if cid = 2 then { parent := .found 1 }
  else {}

theorem env3_decreasing : ParentsDecreasing env3 := by
  intro cid pid h
  unfold env3 at h
  split at h
  · next h3 =>
    subst h3
    cases h
    omega
  · split at h
    · next h2 =>
      subst h2
      cases h
      omega
    · cases h

/-- Message 5 whose parent resolution returns the LATER message 7. -/
def envUp : Env := fun cid =>
  if cid = 5 then { cleanedContent := "a", parent := .found 7 }
  else if cid = 7 then { cleanedContent := "b" }
  else {}

/-- C3 counterexample: (a) with `max_messages = 2` and a strictly decreasing
three-message chain of content-less messages, the loop runs 3 iterations —
more than `max_messages` — refuting "terminates within max_messages
iterations"; (b) when parent resolution yields the later id 7 for message 5,
the walker does NOT set `fetch_parent_failed` and does walk past that node
(visiting 7 and emitting its turn), refuting the claimed ≥-identifier
check. -/
theorem chain_walk_claim_counterexample :
    ((buildHistory env3 p3 10 3 []).map
        (fun r => r.visited.length) = some 3 ∧
      p3.maxMessages < 3) ∧
    ((buildHistory envUp pUp 10 5 []).map
        (fun r => (r.visited, (findNode r.cache 5).map MsgNode.fetch_parent_failed,
          r.messages.length)) = some ([5, 7], some false, 2)) := by
  refine ⟨⟨?_, by decide⟩, ?_⟩
  · rfl
  · rfl

/-- Witness for C3 (amended) at the strictly decreasing chain `env3`. -/
theorem chain_walk_terminates_witness :
    (ParentsDecreasing env3 ∧ CacheDecreasing [] ∧ 3 < 10) ∧
    ∃ r, buildHistory env3 p3 10 3 [] = some r ∧
      r.visited.Nodup ∧ r.messages.length ≤ p3.maxMessages :=
  ⟨⟨env3_decreasing, cacheDecreasing_nil, by omega⟩,
    chain_walk_terminates env3 p3 3 [] 10 env3_decreasing
      cacheDecreasing_nil (by omega)⟩

/-! ### Claim C6: chronological turn order -/

/-- C6: the turn sequence passed to the backend is `messages[::-1]`
(`sentTurns`), the reverse of traversal order; under the strictly decreasing
parent relation the traversal visits newest → oldest, so the source ids of
the sent turns are strictly increasing — chronological order. -/
theorem sent_turns_chronological (env : Env) (p : WalkParams) (leaf : Nat) (c : Cache)
    (fuel : Nat) (henv : ParentsDecreasing env) (hc : CacheDecreasing c)
    (hfuel : leaf < fuel) :
    ∃ r, buildHistory env p fuel leaf c = some r ∧
      (sentSrcIds r).Pairwise (· < ·) ∧
      sentTurns r = r.messages.reverse := by
  obtain ⟨r, hr, _, hsrc, _⟩ := walkAux_total env p henv fuel (some leaf) (initWalkState c)
    hc
    (fun cid hcid => by cases hcid; exact hfuel)
    (by simp [initWalkState])
    (by simp [initWalkState])
    (by simp [initWalkState])
    (by simp [initWalkState])
    (by simp [initWalkState])
  refine ⟨r, hr, ?_, rfl⟩
  unfold sentSrcIds
  rw [List.pairwise_reverse]
  exact hsrc

def pAB : WalkParams := { maxText := 8 }

/-- The spec scenario: message B (id 2) replies to the parentless message A
(id 1). -/
def envAB : Env := fun cid =>
  if cid = 2 then { cleanedContent := "B", parent := .found 1 }
  else if cid = 1 then { cleanedContent := "A" }
  else {}

theorem envAB_decreasing : ParentsDecreasing envAB := by
  intro cid pid h
  unfold envAB at h
  split at h
  · next h2 =>
    subst h2
    cases h
    omega
  · split at h
    · cases h
    · cases h

/-- Witness for C6 at the A/B scenario with `max_messages = 25`: the walk
yields exactly the turns [A, B] in that order, B last. -/
theorem sent_turns_chronological_witness :
    (ParentsDecreasing envAB ∧ CacheDecreasing [] ∧ 2 < 10) ∧
    (∃ r, buildHistory envAB pAB 10 2 [] = some r ∧
      (sentSrcIds r).Pairwise (· < ·) ∧
      sentTurns r = r.messages.reverse) ∧
    (buildHistory envAB pAB 10 2 []).map (fun r => (sentTurns r, sentSrcIds r)) =
      some ([⟨.user, some "A", [], none⟩, ⟨.user, some "B", [], none⟩], [1, 2]) :=
  ⟨⟨envAB_decreasing, cacheDecreasing_nil, by omega⟩,
    sent_turns_chronological envAB pAB 2 [] 10 envAB_decreasing cacheDecreasing_nil
      (by omega),
    rfl⟩

/-! ### The streaming loop (lines 479-566)

The backend stream is an input list of chunks.  `None` models a chunk whose
`choices` list is empty (line 497-498 `continue`); a `Choice` carries
`finish_reason`, `choice.delta.content or ""` and
`getattr(choice.delta, "reasoning", "") or ""`. -/

structure Choice where
  finish_reason : Option String := none
  content : String := ""
  reasoning : String := ""
  deriving DecidableEq

abbrev Chunk := Option Choice

/-- The loop variables of lines 479-482 that both output modes share. -/
structure StreamState where
  curr_content : Option String := none
  finish_reason : Option String := none
  response_contents : List String := []
  reasoning_contents : String := ""
  deriving DecidableEq

/-- Lines 511-514: append `new_content` to `response_contents`, starting a
fresh segment when there is none yet or appending would exceed
`max_message_length`. -/
def appendContent (maxLen : Nat) (rc : List String) (newContent : String) : List String :=
  let rc2 := if rc.isEmpty || decide (maxLen < (rc.getLastD "" ++ newContent).length)
    then rc ++ [""] else rc
  rc2.dropLast ++ [rc2.getLastD "" ++ newContent]

/-- Lines 502-506: `new_content` is the previously staged delta
(`prev_content`), plus this chunk's own delta when it carries the finish
reason. -/
def newContentOf (st : StreamState) (ch : Choice) : String :=
  if ch.finish_reason.isSome then st.curr_content.getD "" ++ ch.content
  else st.curr_content.getD ""

/-- Lines 500-504: record `finish_reason` and stage this chunk's delta as
`curr_content` (this happens even for chunks the `continue` then skips). -/
def stAdvance (st : StreamState) (ch : Choice) : StreamState :=
  { st with finish_reason := ch.finish_reason, curr_content := some ch.content }

/-- Lines 500-516 for one choice-bearing chunk: chunks arriving while nothing
is committed and no segment exists are skipped (lines 508-509), which also
skips their reasoning accumulation; otherwise `new_content` is appended (a
new segment when needed) and reasoning accumulated
(`reasoning_contents += curr_reasoning` is guarded by `if curr_reasoning:`
in the source, which is the same as unconditional concatenation). -/
def chunkStep (maxLen : Nat) (st : StreamState) (ch : Choice) : StreamState :=
  if st.response_contents.isEmpty && (newContentOf st ch).isEmpty then stAdvance st ch
  else
    { stAdvance st ch with
      response_contents := appendContent maxLen st.response_contents (newContentOf st ch),
      reasoning_contents := st.reasoning_contents ++ ch.reasoning }

/-- Lines 494-516 for one chunk: after a chunk has delivered a finish reason
the loop breaks (lines 494-495), so later chunks leave the state unchanged;
an empty-choices chunk is skipped (lines 497-498). -/
def processChunk (maxLen : Nat) (st : StreamState) (ck : Chunk) : StreamState :=
  if st.finish_reason.isSome then st
  else
    match ck with
    | none => st
    | some ch => chunkStep maxLen st ch

/-- The whole streaming loop over the chunk sequence. -/
def runStream (maxLen : Nat) (cks : List Chunk) : StreamState :=
  cks.foldl (processChunk maxLen) {}

/-- Lines 543-544: after the loop, accumulated reasoning becomes one final
extra segment. -/
def finalContents (st : StreamState) : List String :=
  if st.reasoning_contents.isEmpty then st.response_contents
  else st.response_contents ++ ["Reasoning:\n" ++ st.reasoning_contents]

/-- Lines 564-565: `"".join(response_contents)`, the text persisted into
every response node. -/
def persistedText (st : StreamState) : String :=
  String.join (finalContents st)

/-- The content deltas of the choice-bearing chunks, in order. -/
def contentDeltas (cks : List Chunk) : List String :=
  (cks.filterMap id).map (fun ch => ch.content)

/-- The sequence of `new_content` values the loop will commit, starting from
a staged previous delta: each non-finishing choice commits the delta staged
before it, and the finishing choice commits the staged delta plus its own,
ending the stream. -/
def stagedIncrements : List Chunk → Option String → List String
  | [], _ => []
  | ck :: cks, prev =>
    match ck with
    | none => stagedIncrements cks prev
    | some ch =>
      if ch.finish_reason.isSome then [prev.getD "" ++ ch.content]
      else prev.getD "" :: stagedIncrements cks (some ch.content)

/-! ### String.join helper lemmas -/

theorem join_append (l₁ l₂ : List String) :
    String.join (l₁ ++ l₂) = String.join l₁ ++ String.join l₂ :=
  String.ext (by simp)

theorem join_cons (a : String) (l : List String) :
    String.join (a :: l) = a ++ String.join l :=
  String.ext (by simp)

theorem join_singleton (a : String) : String.join [a] = a :=
  String.ext (by simp)

theorem join_nil : String.join [] = "" := rfl

theorem join_appendContent (maxLen : Nat) (rc : List String) (nc : String) :
    String.join (appendContent maxLen rc nc) = String.join rc ++ nc := by
  unfold appendContent
  by_cases hsplit : rc.isEmpty || decide (maxLen < (rc.getLastD "" ++ nc).length)
  · rw [if_pos hsplit]
    dsimp only
    rw [List.dropLast_concat]
    have hlast : (rc ++ [("" : String)]).getLastD "" = "" := by simp
    rw [hlast, join_append, join_singleton, String.empty_append]
  · rw [if_neg hsplit]
    dsimp only
    have hne : rc ≠ [] := by
      intro hnil
      rw [hnil] at hsplit
      simp at hsplit
    have hlast : rc.getLastD "" = rc.getLast hne := by
      rw [List.getLastD_eq_getLast?, List.getLast?_eq_getLast rc hne]
      rfl
    conv_rhs => rw [← List.dropLast_append_getLast hne]
    rw [hlast, join_append, join_append, join_singleton, join_singleton,
      String.append_assoc]

theorem appendContent_bound (maxLen : Nat) (rc : List String) (nc : String)
    (hrc : ∀ s ∈ rc, s.length ≤ maxLen) (hnc : nc.length ≤ maxLen) :
    ∀ s ∈ appendContent maxLen rc nc, s.length ≤ maxLen := by
  intro s hs
  unfold appendContent at hs
  by_cases hsplit : rc.isEmpty || decide (maxLen < (rc.getLastD "" ++ nc).length)
  · rw [if_pos hsplit] at hs
    dsimp only at hs
    rw [List.dropLast_concat] at hs
    have hlast : (rc ++ [("" : String)]).getLastD "" = "" := by simp
    rw [hlast] at hs
    rcases List.mem_append.mp hs with h | h
    · exact hrc s h
    · rw [List.mem_singleton] at h
      rw [h, String.empty_append]
      exact hnc
  · rw [if_neg hsplit] at hs
    dsimp only at hs
    simp only [Bool.or_eq_true, decide_eq_true_eq, not_or] at hsplit
    obtain ⟨-, hfit⟩ := hsplit
    rcases List.mem_append.mp hs with h | h
    · exact hrc s (List.dropLast_subset _ h)
    · rw [List.mem_singleton] at h
      rw [h]
      exact Nat.le_of_not_lt hfit

theorem processChunk_finished (maxLen : Nat) (st : StreamState) (ck : Chunk)
    (h : st.finish_reason.isSome) : processChunk maxLen st ck = st := by
  unfold processChunk
  rw [if_pos h]

theorem foldl_processChunk_finished (maxLen : Nat) (cks : List Chunk) (st : StreamState)
    (h : st.finish_reason.isSome) : cks.foldl (processChunk maxLen) st = st := by
  induction cks with
  | nil => rfl
  | cons ck cks ih =>
    rw [List.foldl_cons, processChunk_finished maxLen st ck h]
    exact ih

theorem chunkStep_finish (maxLen : Nat) (st : StreamState) (ch : Choice) :
    (chunkStep maxLen st ch).finish_reason = ch.finish_reason := by
  unfold chunkStep stAdvance
  by_cases h : st.response_contents.isEmpty && (newContentOf st ch).isEmpty <;> simp [h]

theorem chunkStep_curr (maxLen : Nat) (st : StreamState) (ch : Choice) :
    (chunkStep maxLen st ch).curr_content = some ch.content := by
  unfold chunkStep stAdvance
  by_cases h : st.response_contents.isEmpty && (newContentOf st ch).isEmpty <;> simp [h]

theorem chunkStep_rc (maxLen : Nat) (st : StreamState) (ch : Choice) :
    (chunkStep maxLen st ch).response_contents =
      if st.response_contents.isEmpty && (newContentOf st ch).isEmpty
      then st.response_contents
      else appendContent maxLen st.response_contents (newContentOf st ch) := by
  unfold chunkStep stAdvance
  by_cases h : st.response_contents.isEmpty && (newContentOf st ch).isEmpty <;> simp [h]

theorem chunkStep_reasoning (maxLen : Nat) (st : StreamState) (ch : Choice) :
    (chunkStep maxLen st ch).reasoning_contents =
      if st.response_contents.isEmpty && (newContentOf st ch).isEmpty
      then st.reasoning_contents
      else st.reasoning_contents ++ ch.reasoning := by
  unfold chunkStep stAdvance
  by_cases h : st.response_contents.isEmpty && (newContentOf st ch).isEmpty <;> simp [h]

/-- The committed text of the whole loop is the starting committed text plus
the staged increments. -/
theorem join_foldl_processChunk (maxLen : Nat) :
    ∀ (cks : List Chunk) (st : StreamState), st.finish_reason = none →
      String.join ((cks.foldl (processChunk maxLen) st).response_contents) =
        String.join st.response_contents ++
          String.join (stagedIncrements cks st.curr_content) := by
  intro cks
  induction cks with
  | nil =>
    intro st _
    simp [stagedIncrements, join_nil]
  | cons ck cks ih =>
    intro st h
    have hnf : ¬ st.finish_reason.isSome = true := by
      rw [h]; simp
    cases ck with
    | none =>
      rw [List.foldl_cons]
      have hskip : processChunk maxLen st none = st := by
        unfold processChunk
        rw [if_neg hnf]
      rw [hskip]
      exact ih st h
    | some ch =>
      rw [List.foldl_cons]
      have hproc : processChunk maxLen st (some ch) = chunkStep maxLen st ch := by
        unfold processChunk
        rw [if_neg hnf]
      rw [hproc]
      by_cases hf : ch.finish_reason.isSome
      · -- the finishing chunk: everything after it is ignored
        have hstaged : stagedIncrements (some ch :: cks) st.curr_content =
            [st.curr_content.getD "" ++ ch.content] := by
          simp only [stagedIncrements]
          rw [if_pos hf]
        have hnc : newContentOf st ch = st.curr_content.getD "" ++ ch.content := by
          unfold newContentOf
          rw [if_pos hf]
        have hadvf : (chunkStep maxLen st ch).finish_reason.isSome := by
          rw [chunkStep_finish]
          exact hf
        rw [hstaged, foldl_processChunk_finished maxLen cks _ hadvf, chunkStep_rc]
        by_cases hskip : st.response_contents.isEmpty && (newContentOf st ch).isEmpty
        · rw [if_pos hskip]
          simp only [Bool.and_eq_true, String.isEmpty_iff, List.isEmpty_iff] at hskip
          obtain ⟨hrc, hempty⟩ := hskip
          rw [join_singleton, ← hnc, hempty, String.append_empty]
        · rw [if_neg hskip]
          rw [join_appendContent, join_singleton, hnc]
      · -- a mid-stream chunk: the previous delta is committed, this one staged
        have hf' : ch.finish_reason = none := by
          cases hcc : ch.finish_reason with
          | none => rfl
          | some v => rw [hcc] at hf; simp at hf
        have hstaged : stagedIncrements (some ch :: cks) st.curr_content =
            st.curr_content.getD "" :: stagedIncrements cks (some ch.content) := by
          simp only [stagedIncrements]
          rw [if_neg hf]
        have hnc : newContentOf st ch = st.curr_content.getD "" := by
          unfold newContentOf
          rw [if_neg hf]
        have hfin : (chunkStep maxLen st ch).finish_reason = none := by
          rw [chunkStep_finish]
          exact hf'
        rw [hstaged, ih _ hfin, chunkStep_rc, chunkStep_curr]
        by_cases hskip : st.response_contents.isEmpty && (newContentOf st ch).isEmpty
        · rw [if_pos hskip]
          simp only [Bool.and_eq_true, String.isEmpty_iff, List.isEmpty_iff] at hskip
          obtain ⟨-, hempty⟩ := hskip
          rw [hnc] at hempty
          rw [join_cons, hempty, String.empty_append]
        · rw [if_neg hskip]
          rw [join_appendContent, join_cons, hnc, String.append_assoc]

/-- The committed text of `runStream`. -/
theorem join_runStream (maxLen : Nat) (cks : List Chunk) :
    String.join ((runStream maxLen cks).response_contents) =
      String.join (stagedIncrements cks none) := by
  unfold runStream
  rw [join_foldl_processChunk maxLen cks {} rfl]
  rw [join_nil, String.empty_append]

/-- Segment-length invariant: if every staged increment fits in `maxLen`,
every segment of the final state fits. -/
theorem foldl_processChunk_bound (maxLen : Nat) :
    ∀ (cks : List Chunk) (st : StreamState),
      (∀ s ∈ st.response_contents, s.length ≤ maxLen) →
      (∀ inc ∈ stagedIncrements cks st.curr_content, inc.length ≤ maxLen) →
      ∀ s ∈ (cks.foldl (processChunk maxLen) st).response_contents, s.length ≤ maxLen := by
  intro cks
  induction cks with
  | nil =>
    intro st hrc _
    exact hrc
  | cons ck cks ih =>
    intro st hrc hinc
    by_cases hfin : st.finish_reason.isSome
    · rw [foldl_processChunk_finished maxLen _ st hfin]
      exact hrc
    · cases ck with
      | none =>
        rw [List.foldl_cons]
        have hid : processChunk maxLen st none = st := by
          unfold processChunk
          rw [if_neg hfin]
        rw [hid]
        refine ih st hrc ?_
        intro inc hm
        apply hinc
        simpa only [stagedIncrements] using hm
      | some ch =>
        rw [List.foldl_cons]
        have hproc : processChunk maxLen st (some ch) = chunkStep maxLen st ch := by
          unfold processChunk
          rw [if_neg hfin]
        rw [hproc]
        by_cases hf : ch.finish_reason.isSome
        · have hadvf : (chunkStep maxLen st ch).finish_reason.isSome := by
            rw [chunkStep_finish]
            exact hf
          rw [foldl_processChunk_finished maxLen cks _ hadvf]
          intro s hs
          rw [chunkStep_rc] at hs
          by_cases hskip : st.response_contents.isEmpty && (newContentOf st ch).isEmpty
          · rw [if_pos hskip] at hs
            exact hrc s hs
          · rw [if_neg hskip] at hs
            have hncb : (newContentOf st ch).length ≤ maxLen := by
              apply hinc
              simp only [stagedIncrements]
              rw [if_pos hf]
              unfold newContentOf
              rw [if_pos hf]
              exact List.mem_singleton_self _
            exact appendContent_bound maxLen st.response_contents (newContentOf st ch)
              hrc hncb s hs
        · have hstaged : stagedIncrements (some ch :: cks) st.curr_content =
              st.curr_content.getD "" :: stagedIncrements cks (some ch.content) := by
            simp only [stagedIncrements]
            rw [if_neg hf]
          rw [hstaged] at hinc
          have hprev : (st.curr_content.getD "").length ≤ maxLen :=
            hinc _ (List.mem_cons_self _ _)
          have hnc : newContentOf st ch = st.curr_content.getD "" := by
            unfold newContentOf
            rw [if_neg hf]
          refine ih (chunkStep maxLen st ch) ?_ ?_
          · intro s hs
            rw [chunkStep_rc] at hs
            by_cases hskip : st.response_contents.isEmpty && (newContentOf st ch).isEmpty
            · rw [if_pos hskip] at hs
              exact hrc s hs
            · rw [if_neg hskip] at hs
              refine appendContent_bound maxLen _ _ hrc ?_ s hs
              rw [hnc]
              exact hprev
          · rw [chunkStep_curr]
            intro inc hm
            exact hinc inc (List.mem_cons_of_mem _ hm)

/-- With no finish reason anywhere, the staged increments are exactly the
deltas shifted one chunk back: the last delta is never committed. -/
theorem staged_no_finish :
    ∀ (cks : List Chunk), (∀ c ∈ cks.filterMap id, c.finish_reason = none) →
      ∀ (prev : Option String),
        stagedIncrements cks prev = (prev.getD "" :: contentDeltas cks).dropLast := by
  intro cks
  induction cks with
  | nil =>
    intro _ prev
    rfl
  | cons ck cks ih =>
    intro h prev
    cases ck with
    | none =>
      have htail : ∀ c ∈ cks.filterMap id, c.finish_reason = none := by
        intro c hc
        apply h
        simpa using hc
      simp only [stagedIncrements]
      rw [ih htail prev]
      have hd : contentDeltas (none :: cks) = contentDeltas cks := by
        simp [contentDeltas]
      rw [hd]
    | some ch =>
      have hch : ch.finish_reason = none := by
        apply h
        simp
      have hf : ¬ ch.finish_reason.isSome = true := by
        rw [hch]
        simp
      have htail : ∀ c ∈ cks.filterMap id, c.finish_reason = none := by
        intro c hc
        apply h
        have hfm : List.filterMap id (some ch :: cks) = ch :: List.filterMap id cks := rfl
        rw [hfm]
        exact List.mem_cons_of_mem _ hc
      simp only [stagedIncrements]
      rw [if_neg hf, ih htail (some ch.content)]
      have hd : contentDeltas (some ch :: cks) = ch.content :: contentDeltas cks := by
        simp [contentDeltas]
      rw [hd]
      rfl

/-- With a finishing chunk, the committed text is the staged prefix plus all
the deltas up through the finishing chunk. -/
theorem join_staged_with_finish :
    ∀ (pre : List Chunk) (chf : Choice) (post : List Chunk),
      (∀ c ∈ pre.filterMap id, c.finish_reason = none) →
      chf.finish_reason.isSome →
      ∀ (prev : Option String),
        String.join (stagedIncrements (pre ++ some chf :: post) prev) =
          prev.getD "" ++ String.join (contentDeltas pre) ++ chf.content := by
  intro pre
  induction pre with
  | nil =>
    intro chf post _ hf prev
    rw [List.nil_append]
    simp only [stagedIncrements]
    rw [if_pos hf, join_singleton]
    have hd : contentDeltas [] = [] := rfl
    rw [hd, join_nil, String.append_empty]
  | cons ck pre ih =>
    intro chf post h hf prev
    cases ck with
    | none =>
      have htail : ∀ c ∈ pre.filterMap id, c.finish_reason = none := by
        intro c hc
        apply h
        simpa using hc
      rw [List.cons_append]
      simp only [stagedIncrements]
      rw [ih chf post htail hf prev]
      have hd : contentDeltas (none :: pre) = contentDeltas pre := by
        simp [contentDeltas]
      rw [hd]
    | some ch =>
      have hch : ch.finish_reason = none := by
        apply h
        simp
      have hfn : ¬ ch.finish_reason.isSome = true := by
        rw [hch]
        simp
      have htail : ∀ c ∈ pre.filterMap id, c.finish_reason = none := by
        intro c hc
        apply h
        have hfm : List.filterMap id (some ch :: pre) = ch :: List.filterMap id pre := rfl
        rw [hfm]
        exact List.mem_cons_of_mem _ hc
      rw [List.cons_append]
      simp only [stagedIncrements]
      rw [if_neg hfn, join_cons, ih chf post htail hf (some ch.content)]
      have hd : contentDeltas (some ch :: pre) = ch.content :: contentDeltas pre := by
        simp [contentDeltas]
      rw [hd, join_cons]
      simp [String.append_assoc]

/-! ### Claim C9: the one-behind commit drops an unfinished stream's last delta -/

/-- C9: each chunk commits the PREVIOUS chunk's delta; only a finish-bearing
chunk commits its own as well.  Hence if the stream never delivers a
finish reason, the committed segments concatenate to all deltas except the
last, and the persisted text is that concatenation plus (only) the reasoning
segment — the final content delta appears in neither. -/
theorem final_delta_never_committed (maxLen : Nat) (cks : List Chunk)
    (h : ∀ c ∈ cks.filterMap id, c.finish_reason = none) :
    String.join ((runStream maxLen cks).response_contents) =
      String.join ((contentDeltas cks).dropLast) ∧
    persistedText (runStream maxLen cks) =
      String.join ((contentDeltas cks).dropLast) ++
        (if (runStream maxLen cks).reasoning_contents.isEmpty then ""
          else "Reasoning:\n" ++ (runStream maxLen cks).reasoning_contents) := by
  have h1 := join_runStream maxLen cks
  rw [staged_no_finish cks h none] at h1
  have h2 : String.join ((("" : String) :: contentDeltas cks).dropLast)
      = String.join ((contentDeltas cks).dropLast) := by
    cases hd : contentDeltas cks with
    | nil => rfl
    | cons a l =>
      show String.join (("" : String) :: (a :: l).dropLast) = _
      rw [join_cons, String.empty_append]
  have hmain : String.join ((runStream maxLen cks).response_contents) =
      String.join ((contentDeltas cks).dropLast) := by
    rw [h1]
    exact h2
  refine ⟨hmain, ?_⟩
  unfold persistedText finalContents
  by_cases hre : (runStream maxLen cks).reasoning_contents.isEmpty
  · rw [if_pos hre, if_pos hre, hmain, String.append_empty]
  · rw [if_neg hre, if_neg hre, join_append, join_singleton, hmain]

def c9Chunks : List Chunk := [some { content := "ab" }, some { content := "cd" }]

/-- Witness for C9: a two-delta stream with no finish reason commits only
the first delta. -/
theorem final_delta_never_committed_witness :
    (∀ c ∈ c9Chunks.filterMap id, c.finish_reason = none) ∧
    (String.join ((runStream (max_message_length false) c9Chunks).response_contents) =
        String.join ((contentDeltas c9Chunks).dropLast) ∧
      persistedText (runStream (max_message_length false) c9Chunks) =
        String.join ((contentDeltas c9Chunks).dropLast) ++
          (if (runStream (max_message_length false) c9Chunks).reasoning_contents.isEmpty
            then ""
            else "Reasoning:\n" ++
              (runStream (max_message_length false) c9Chunks).reasoning_contents)) ∧
    String.join ((runStream (max_message_length false) c9Chunks).response_contents) = "ab" :=
  ⟨by decide, final_delta_never_committed (max_message_length false) c9Chunks (by decide),
    by decide⟩

/-! ### Claim C4: segment length bound and losslessness -/

/-- C4 (amended): when the stream delivers a finish reason and every
committed increment (a single staged delta, or at the finishing chunk the
staged delta plus the finishing delta) fits within `max_message_length`,
then every segment of `response_contents` is at most `max_message_length`
long and the segments concatenate exactly to all content deltas up through
the finishing chunk (the streaming indicator never enters
`response_contents`; it is only appended to the displayed embed text). -/
theorem segment_bound_lossless (maxLen : Nat) (pre post : List Chunk) (chf : Choice)
    (hpre : ∀ c ∈ pre.filterMap id, c.finish_reason = none)
    (hf : chf.finish_reason.isSome)
    (hinc : ∀ inc ∈ stagedIncrements (pre ++ some chf :: post) none,
      inc.length ≤ maxLen) :
    (∀ s ∈ (runStream maxLen (pre ++ some chf :: post)).response_contents,
      s.length ≤ maxLen) ∧
    String.join ((runStream maxLen (pre ++ some chf :: post)).response_contents) =
      String.join (contentDeltas (pre ++ [some chf])) := by
  constructor
  · exact foldl_processChunk_bound maxLen _ {} (by simp) hinc
  · rw [join_runStream, join_staged_with_finish pre chf post hpre hf none]
    have hd : contentDeltas (pre ++ [some chf]) = contentDeltas pre ++ [chf.content] := by
      simp [contentDeltas]
    rw [hd, join_append, join_singleton]
    have h0 : (none : Option String).getD "" = "" := rfl
    rw [h0, String.empty_append]

def longDelta : String := String.mk (List.replicate 4095 'a')

def ch1 : Choice := { content := longDelta }

def ch2 : Choice := { finish_reason := some "stop" }

def c4Chunks : List Chunk := [some ch1, some ch2]

theorem longDelta_length : longDelta.length = 4095 := by
  show (List.replicate 4095 'a').length = 4095
  rw [List.length_replicate]

theorem longDelta_ne : longDelta ≠ "" := by
  intro h
  have h2 := congrArg String.length h
  rw [longDelta_length] at h2
  simp at h2

theorem appendContent_nil (maxLen : Nat) (nc : String) :
    appendContent maxLen [] nc = [nc] := by
  simp [appendContent]

/-- C4 counterexample: one 4095-character delta followed by the finishing
chunk is committed whole into a single segment of length 4095, exceeding
`max_message_length = 4096 - len(STREAMING_INDICATOR) = 4094`. -/
theorem segment_bound_counterexample :
    (runStream (max_message_length false) c4Chunks).response_contents = [longDelta] ∧
    max_message_length false < longDelta.length := by
  have hM : max_message_length false = 4094 := by decide
  constructor
  · have hst1 : processChunk (max_message_length false) {} (some ch1) =
        { curr_content := some longDelta } := rfl
    have hnc2 : newContentOf { curr_content := some longDelta } ch2 = longDelta := by
      unfold newContentOf
      rw [if_pos (show ch2.finish_reason.isSome = true from rfl)]
      show longDelta ++ "" = longDelta
      exact String.append_empty longDelta
    have hemp : longDelta.isEmpty = false := by
      rw [Bool.eq_false_iff]
      intro he
      exact longDelta_ne ((String.isEmpty_iff _).mp he)
    have hcond : (({ curr_content := some longDelta } : StreamState).response_contents.isEmpty
        && (newContentOf { curr_content := some longDelta } ch2).isEmpty) = false := by
      rw [hnc2, hemp, Bool.and_false]
    have hproc : processChunk (max_message_length false)
        { curr_content := some longDelta } (some ch2)
        = chunkStep (max_message_length false) { curr_content := some longDelta } ch2 := by
      unfold processChunk
      rw [if_neg (show ¬ (({ curr_content := some longDelta } : StreamState).finish_reason.isSome
        = true) from by intro hx; cases hx)]
    unfold runStream c4Chunks
    rw [List.foldl_cons, List.foldl_cons, List.foldl_nil]
    rw [hst1, hproc, chunkStep_rc,
      if_neg (show ¬ _ = true from by rw [hcond]; intro hx; cases hx)]
    show appendContent (max_message_length false) []
      (newContentOf { curr_content := some longDelta } ch2) = [longDelta]
    rw [appendContent_nil, hnc2]
  · rw [hM, longDelta_length]
    omega

def c4wPre : List Chunk := [some { content := "ab" }]

def c4wFin : Choice := { finish_reason := some "stop", content := "c" }

/-- Witness for C4 (amended) on a small finishing stream. -/
theorem segment_bound_lossless_witness :
    ((∀ c ∈ c4wPre.filterMap id, c.finish_reason = none) ∧
      c4wFin.finish_reason.isSome ∧
      (∀ inc ∈ stagedIncrements (c4wPre ++ some c4wFin :: []) none,
        inc.length ≤ max_message_length false)) ∧
    ((∀ s ∈ (runStream (max_message_length false)
        (c4wPre ++ some c4wFin :: [])).response_contents,
      s.length ≤ max_message_length false) ∧
    String.join ((runStream (max_message_length false)
        (c4wPre ++ some c4wFin :: [])).response_contents) =
      String.join (contentDeltas (c4wPre ++ [some c4wFin]))) :=
  ⟨⟨by decide, by decide, by decide⟩,
    segment_bound_lossless (max_message_length false) c4wPre [] c4wFin
      (by decide) (by decide) (by decide)⟩

/-! ### The timed embed-mode loop (lines 518-541), C7 and C10

Each loop iteration additionally consults the clock
(`datetime.now().timestamp()`, a rational here) and the module-global
`last_task_time`, and may emit a live update: a fresh reply send when a new
segment starts, or an edit.  `edit_task.done()` is environment input: a
pending edit task may complete at any point before a later chunk. -/

structure Emission where
  time : ℚ
  isStart : Bool
  isFinal : Bool
  deriving DecidableEq

/-- Per-response state of the embed-mode loop.  `editDone` models
`edit_task == None or edit_task.done()` (initially `True` since
`edit_task = None`; after `await edit_task` the awaited task is done; a
fresh `create_task` makes it `False`). -/
structure RespState where
  s : StreamState := {}
  editDone : Bool := true
  emissions : List Emission := []
  deriving DecidableEq

structure TimedChunk where
  choice : Chunk
  now : ℚ
  editDoneByNow : Bool := false
  deriving DecidableEq

/-- Line 511's walrus condition (evaluated on the pre-append contents). -/
def startNextMsg (maxLen : Nat) (st : StreamState) (ch : Choice) : Bool :=
  st.response_contents.isEmpty
    || decide (maxLen < (st.response_contents.getLastD "" ++ newContentOf st ch).length)

/-- Line 520 (on the post-append contents `st'`). -/
def msgSplitIncoming (maxLen : Nat) (st' : StreamState) (ch : Choice) : Bool :=
  !ch.finish_reason.isSome
    && decide (maxLen < (st'.response_contents.getLastD "" ++ ch.content).length)

/-- Line 521. -/
def isFinalEdit (maxLen : Nat) (st' : StreamState) (ch : Choice) : Bool :=
  ch.finish_reason.isSome || msgSplitIncoming maxLen st' ch

/-- One iteration of the embed-mode loop: the content bookkeeping of
`chunkStep` plus lines 518-541 (`ready_to_edit` at line 519 compares
`now - last_task_time >= EDIT_DELAY_SECONDS`, i.e.
`last + EDIT_DELAY_SECONDS ≤ now`; on any emission `last_task_time := now`;
a send leaves the awaited old edit task done, an edit creates a fresh
not-yet-done task).  Returns the response state and the new shared
`last_task_time`. -/
def timedStep (maxLen : Nat) (last : ℚ) (rs : RespState) (tc : TimedChunk) :
    RespState × ℚ :=
  if rs.s.finish_reason.isSome then (rs, last)
  else
    match tc.choice with
    | none => (rs, last)
    | some ch =>
      let editDone := rs.editDone || tc.editDoneByNow
      let st' := chunkStep maxLen rs.s ch
      if rs.s.response_contents.isEmpty && (newContentOf rs.s ch).isEmpty then
        ({ rs with s := st', editDone := editDone }, last)
      else
        let start := startNextMsg maxLen rs.s ch
        let ready := editDone && decide (last + EDIT_DELAY_SECONDS ≤ tc.now)
        let finalE := isFinalEdit maxLen st' ch
        if start || ready || finalE then
          ({ s := st', editDone := start,
             emissions := rs.emissions ++ [⟨tc.now, start, finalE⟩] }, tc.now)
        else
          ({ rs with s := st', editDone := editDone }, last)

def runTimed (maxLen : Nat) : List TimedChunk → RespState → ℚ → RespState × ℚ
  | [], rs, last => (rs, last)
  | tc :: tcs, rs, last =>
    let p := timedStep maxLen last rs tc
    runTimed maxLen tcs p.1 p.2

/-- The claimed pacing between an earlier emission `a` and a later emission
`b`: unless `b` was triggered by a new segment start or is a terminal
update, it comes at least `EDIT_DELAY_SECONDS` after `a`. -/
def EmissionGap (a b : Emission) : Prop :=
  b.isStart = false → b.isFinal = false → a.time + EDIT_DELAY_SECONDS ≤ b.time

/-- Case analysis of one timed step: either nothing is emitted and the
shared timer is untouched, or exactly one emission at `tc.now` happens, the
timer becomes `tc.now`, and a plain (non-start, non-final) emission implies
the timer gap had elapsed. -/
theorem timedStep_cases (maxLen : Nat) (last : ℚ) (rs : RespState) (tc : TimedChunk) :
    ((timedStep maxLen last rs tc).1.emissions = rs.emissions ∧
      (timedStep maxLen last rs tc).2 = last) ∨
    (∃ st ff, (timedStep maxLen last rs tc).1.emissions
        = rs.emissions ++ [⟨tc.now, st, ff⟩] ∧
      (timedStep maxLen last rs tc).2 = tc.now ∧
      (st = false → ff = false → last + EDIT_DELAY_SECONDS ≤ tc.now)) := by
  unfold timedStep
  by_cases hfin : rs.s.finish_reason.isSome
  · rw [if_pos hfin]
    exact Or.inl ⟨rfl, rfl⟩
  · rw [if_neg hfin]
    cases tc.choice with
    | none => exact Or.inl ⟨rfl, rfl⟩
    | some ch =>
      dsimp only
      by_cases hskip : rs.s.response_contents.isEmpty && (newContentOf rs.s ch).isEmpty
      · rw [if_pos hskip]
        exact Or.inl ⟨rfl, rfl⟩
      · rw [if_neg hskip]
        by_cases hemit : startNextMsg maxLen rs.s ch
          || ((rs.editDone || tc.editDoneByNow)
            && decide (last + EDIT_DELAY_SECONDS ≤ tc.now))
          || isFinalEdit maxLen (chunkStep maxLen rs.s ch) ch
        · rw [if_pos hemit]
          refine Or.inr ⟨startNextMsg maxLen rs.s ch,
            isFinalEdit maxLen (chunkStep maxLen rs.s ch) ch, rfl, rfl, ?_⟩
          intro hst hff
          rw [hst, hff] at hemit
          simp only [Bool.false_or, Bool.or_false, Bool.and_eq_true,
            decide_eq_true_eq] at hemit
          exact hemit.2
        · rw [if_neg hemit]
          exact Or.inl ⟨rfl, rfl⟩

/-- Pacing invariant carried through the loop. -/
theorem runTimed_invariant (maxLen : Nat) :
    ∀ (tcs : List TimedChunk) (rs : RespState) (last : ℚ),
      (∀ e ∈ rs.emissions, e.time ≤ last) →
      rs.emissions.Pairwise EmissionGap →
      (∀ tc ∈ tcs, last ≤ tc.now) →
      (tcs.map (fun tc => tc.now)).Pairwise (· ≤ ·) →
      (∀ e ∈ (runTimed maxLen tcs rs last).1.emissions,
        e.time ≤ (runTimed maxLen tcs rs last).2) ∧
      (runTimed maxLen tcs rs last).1.emissions.Pairwise EmissionGap := by
  intro tcs
  induction tcs with
  | nil =>
    intro rs last h1 h2 _ _
    exact ⟨h1, h2⟩
  | cons tc tcs ih =>
    intro rs last h1 h2 h3 h4
    have hrun : runTimed maxLen (tc :: tcs) rs last
        = runTimed maxLen tcs (timedStep maxLen last rs tc).1
          (timedStep maxLen last rs tc).2 := rfl
    rw [hrun]
    have hmap := List.pairwise_cons.mp h4
    rcases timedStep_cases maxLen last rs tc with ⟨he, hl⟩ | ⟨st, ff, he, hl, hgap⟩
    · refine ih _ _ ?_ ?_ ?_ hmap.2
      · rw [he, hl]
        exact h1
      · rw [he]
        exact h2
      · rw [hl]
        intro tc' htc'
        exact h3 tc' (List.mem_cons_of_mem _ htc')
    · refine ih _ _ ?_ ?_ ?_ hmap.2
      · rw [he, hl]
        intro e hme
        rcases List.mem_append.mp hme with hme | hme
        · exact le_trans (h1 e hme) (h3 tc (List.mem_cons_self _ _))
        · rw [List.mem_singleton] at hme
          rw [hme]
      · rw [he]
        rw [List.pairwise_append]
        refine ⟨h2, List.pairwise_singleton _ _, ?_⟩
        intro a hma b hmb
        rw [List.mem_singleton] at hmb
        subst hmb
        intro hst hff
        have hbound := hgap hst hff
        have hat : a.time ≤ last := h1 a hma
        calc a.time + EDIT_DELAY_SECONDS
            ≤ last + EDIT_DELAY_SECONDS := by
              exact add_le_add_right hat _
          _ ≤ tc.now := hbound
      · rw [hl]
        intro tc' htc'
        exact hmap.1 tc'.now (List.mem_map_of_mem _ htc')

/-- C7: within one response, any two emitted live updates where the later
one is neither a new-segment send nor a terminal edit are at least
`EDIT_DELAY_SECONDS` apart (given a monotone clock whose first reading is
not before the initial `last_task_time`). -/
theorem edit_rate_bound (maxLen : Nat) (tcs : List TimedChunk) (last0 : ℚ)
    (hmono : (last0 :: tcs.map (fun tc => tc.now)).Pairwise (· ≤ ·)) :
    (runTimed maxLen tcs {} last0).1.emissions.Pairwise EmissionGap := by
  have hmap := List.pairwise_cons.mp hmono
  refine (runTimed_invariant maxLen tcs {} last0 ?_ ?_ ?_ hmap.2).2
  · intro e hme
    cases hme
  · exact List.Pairwise.nil
  · intro tc htc
    exact hmap.1 tc.now (List.mem_map_of_mem _ htc)

def c7Chunks : List TimedChunk :=
  [⟨some { content := "x" }, 0, false⟩,
   ⟨some { content := "y" }, 1, false⟩,
   ⟨some { content := "z" }, 3, false⟩]

/-- Witness for C7: a send at t=1 and a plain rate-limited edit at t=3. -/
theorem edit_rate_bound_witness :
    ((0 :: c7Chunks.map (fun tc => tc.now)) : List ℚ).Pairwise (· ≤ ·) ∧
    (runTimed (max_message_length false) c7Chunks {} 0).1.emissions.Pairwise EmissionGap ∧
    (runTimed (max_message_length false) c7Chunks {} 0).1.emissions =
      [⟨1, true, false⟩, ⟨3, false, false⟩] :=
  ⟨by norm_num [c7Chunks, List.pairwise_cons],
    edit_rate_bound (max_message_length false) c7Chunks 0
      (by norm_num [c7Chunks, List.pairwise_cons]),
    by norm_num +decide [c7Chunks, runTimed, timedStep, chunkStep, stAdvance,
      newContentOf, startNextMsg, msgSplitIncoming, isFinalEdit, appendContent,
      EDIT_DELAY_SECONDS]⟩

/-! ### Claim C10: the shared `last_task_time` couples concurrent responses -/

/-- One streaming-loop iteration of one of two concurrently handled
responses (`second = true` for the second response). -/
structure SharedEvent where
  second : Bool
  tc : TimedChunk
  deriving DecidableEq

/-- The module-global `last_task_time` plus the two responses' own state. -/
structure SharedState where
  last : ℚ
  r1 : RespState
  r2 : RespState
  deriving DecidableEq

def sharedStep (maxLen : Nat) (st : SharedState) (ev : SharedEvent) : SharedState :=
  if ev.second then
    let p := timedStep maxLen st.last st.r2 ev.tc
    { st with r2 := p.1, last := p.2 }
  else
    let p := timedStep maxLen st.last st.r1 ev.tc
    { st with r1 := p.1, last := p.2 }

def runShared (maxLen : Nat) (evs : List SharedEvent) (last0 : ℚ) : SharedState :=
  evs.foldl (sharedStep maxLen) { last := last0, r1 := {}, r2 := {} }

def r1c1 : SharedEvent := ⟨false, ⟨some { content := "x" }, 0, false⟩⟩

def r1c2 : SharedEvent := ⟨false, ⟨some { content := "y" }, 1, false⟩⟩

def r1c3 : SharedEvent := ⟨false, ⟨some { content := "z" }, 10, false⟩⟩

def r2c1 : SharedEvent := ⟨true, ⟨some { content := "a" }, 2, false⟩⟩

def r2c2 : SharedEvent := ⟨true, ⟨some { content := "b" }, 19/2, false⟩⟩

def schedAlone : List SharedEvent := [r1c1, r1c2, r1c3]

def schedShared : List SharedEvent := [r1c1, r1c2, r2c1, r2c2, r1c3]

/-- C10: `last_task_time` is one module global shared by all in-flight
responses.  Two interleavings whose response-1 events are identical (same
chunks, same clock readings) — the second merely adds response-2 events —
give response 1 different emitted update sets: response 2's send at t=9.5
resets the shared timer, so response 1's would-be edit at t=10 is
suppressed. -/
theorem shared_timer_interference :
    schedShared.filter (fun ev => !ev.second) = schedAlone ∧
    (runShared (max_message_length false) schedAlone 0).r1.emissions =
      [⟨1, true, false⟩, ⟨10, false, false⟩] ∧
    (runShared (max_message_length false) schedShared 0).r1.emissions =
      [⟨1, true, false⟩] ∧
    (runShared (max_message_length false) schedAlone 0).r1.emissions ≠
      (runShared (max_message_length false) schedShared 0).r1.emissions := by
  have h1 : (runShared (max_message_length false) schedAlone 0).r1.emissions =
      [⟨1, true, false⟩, ⟨10, false, false⟩] := by
    norm_num +decide [schedAlone, r1c1, r1c2, r1c3, runShared, sharedStep, timedStep,
      chunkStep, stAdvance, newContentOf, startNextMsg, msgSplitIncoming, isFinalEdit,
      appendContent, EDIT_DELAY_SECONDS]
  have h2 : (runShared (max_message_length false) schedShared 0).r1.emissions =
      [⟨1, true, false⟩] := by
    norm_num +decide [schedShared, r1c1, r1c2, r1c3, r2c1, r2c2, runShared, sharedStep,
      timedStep, chunkStep, stAdvance, newContentOf, startNextMsg, msgSplitIncoming,
      isFinalEdit, appendContent, EDIT_DELAY_SECONDS]
  refine ⟨by decide, h1, h2, ?_⟩
  rw [h1, h2]
  intro hx
  cases hx

/-! ### Claim C5: response-node creation, text persistence and lock release

The pipeline's effect on `msg_nodes` entries it creates for outgoing
response messages: in embed mode a node is created and its lock acquired
whenever a new segment starts a fresh reply (lines 531-537); in plain mode
one per successfully sent content (lines 552-559).  Backend/transport
errors abort the remainder (caught at lines 561-562), after which the
lines 564-566 loop always persists `"".join(response_contents)` into every
created node and releases its lock.  `freshId i` is the Discord-assigned id
of the `i`-th outgoing reply. -/

structure PipeState where
  s : StreamState := {}
  cache : Cache := []
  respMsgs : List Nat := []
  locksHeld : List Nat := []
  deriving DecidableEq

/-- One streaming-loop iteration, tracking node creation: when
`start_next_msg` fires in embed mode, the fresh reply's node is inserted
with `parent_msg = new_msg` and its lock acquired (lines 531-537). -/
def pipeChunk (maxLen : Nat) (usePlain : Bool) (leafId : Nat) (freshId : Nat → Nat)
    (ps : PipeState) (ck : Chunk) : PipeState :=
  if ps.s.finish_reason.isSome then ps
  else
    match ck with
    | none => ps
    | some ch =>
      if ps.s.response_contents.isEmpty && (newContentOf ps.s ch).isEmpty then
        { ps with s := stAdvance ps.s ch }
      else
        let st' := chunkStep maxLen ps.s ch
        if !usePlain && startNextMsg maxLen ps.s ch then
          let rid := freshId ps.respMsgs.length
          { s := st',
            cache := storeNode ps.cache rid { parent_msg := some leafId },
            respMsgs := ps.respMsgs ++ [rid],
            locksHeld := ps.locksHeld ++ [rid] }
        else { ps with s := st' }

/-- Lines 552-559: each plain-mode reply creates and locks a node; `n` is how
many sends succeed before a transport error (all of them when none occurs). -/
def plainSends (leafId : Nat) (freshId : Nat → Nat) : Nat → PipeState → PipeState
  | 0, ps => ps
  | n + 1, ps =>
    let rid := freshId ps.respMsgs.length
    plainSends leafId freshId n
      { ps with
        cache := storeNode ps.cache rid { parent_msg := some leafId },
        respMsgs := ps.respMsgs ++ [rid],
        locksHeld := ps.locksHeld ++ [rid] }

/-- Where (if anywhere) the pipeline's try-block raises. -/
inductive PipelineFault
  | noFault
  | duringStream (k : Nat)
  | afterReasonAppend
  | duringPlainSend (j : Nat)
  deriving DecidableEq

/-- Lines 564-566: `for response_msg in response_msgs:` persist the joined
contents into the node and release its lock. -/
def finalizeAux (txt : String) : List Nat → Cache → List Nat → Cache × List Nat
  | [], c, l => (c, l)
  | rid :: rids, c, l =>
    finalizeAux txt rids
      (storeNode c rid { ((findNode c rid).getD {}) with text := some txt })
      (l.erase rid)

def finalize (ps : PipeState) : PipeState :=
  let r := finalizeAux (String.join ps.s.response_contents) ps.respMsgs ps.cache ps.locksHeld
  { ps with cache := r.1, locksHeld := r.2 }

/-- The streaming loop; a backend error after `k` chunks means only the
first `k` chunks were processed. -/
def streamPhase (maxLen : Nat) (usePlain : Bool) (leafId : Nat) (freshId : Nat → Nat)
    (cks : List Chunk) (fault : PipelineFault) : PipeState :=
  match fault with
  | .duringStream k => (cks.take k).foldl (pipeChunk maxLen usePlain leafId freshId) {}
  | _ => cks.foldl (pipeChunk maxLen usePlain leafId freshId) {}

/-- Lines 543-544, skipped when the loop itself raised; the reasoning
segment is appended before a reasoning-flush edit failure (modelled by
`afterReasonAppend`). -/
def reasonPhase (fault : PipelineFault) (ps : PipeState) : PipeState :=
  match fault with
  | .duringStream _ => ps
  | _ =>
    if ps.s.reasoning_contents.isEmpty then ps
    else { ps with s := { ps.s with response_contents :=
        ps.s.response_contents ++ ["Reasoning:\n" ++ ps.s.reasoning_contents] } }

/-- Lines 552-559 (plain mode only), reached only when nothing raised
earlier; a transport error at the `j`-th send leaves the later nodes
uncreated. -/
def plainPhase (usePlain : Bool) (leafId : Nat) (freshId : Nat → Nat)
    (fault : PipelineFault) (ps : PipeState) : PipeState :=
  if usePlain then
    match fault with
    | .noFault => plainSends leafId freshId ps.s.response_contents.length ps
    | .duringPlainSend j => plainSends leafId freshId (min j ps.s.response_contents.length) ps
    | _ => ps
  else ps

/-- The response pipeline of lines 479-566, with `fault` describing whether
and where the `try` block raised.  The finalize loop always runs. -/
def pipeline (maxLen : Nat) (usePlain : Bool) (leafId : Nat) (freshId : Nat → Nat)
    (cks : List Chunk) (fault : PipelineFault) : PipeState :=
  finalize (plainPhase usePlain leafId freshId fault
    (reasonPhase fault (streamPhase maxLen usePlain leafId freshId cks fault)))

/-- The created-node bookkeeping invariant: response ids are the fresh ids
in creation order, exactly the held locks, and each has a cache entry. -/
def RespInv (freshId : Nat → Nat) (ps : PipeState) : Prop :=
  ps.respMsgs = (List.range ps.respMsgs.length).map freshId ∧
  ps.locksHeld = ps.respMsgs ∧
  ∀ rid ∈ ps.respMsgs, (findNode ps.cache rid).isSome

theorem respInv_create (freshId : Nat → Nat) (ps : PipeState) (leafId : Nat)
    (h : RespInv freshId ps) :
    RespInv freshId
      { s := ps.s,
        cache := storeNode ps.cache (freshId ps.respMsgs.length) { parent_msg := some leafId },
        respMsgs := ps.respMsgs ++ [freshId ps.respMsgs.length],
        locksHeld := ps.locksHeld ++ [freshId ps.respMsgs.length] } := by
  obtain ⟨h1, h2, h3⟩ := h
  refine ⟨?_, ?_, ?_⟩
  · show ps.respMsgs ++ [freshId ps.respMsgs.length]
      = (List.range (ps.respMsgs ++ [freshId ps.respMsgs.length]).length).map freshId
    rw [List.length_append, List.length_singleton, List.range_succ, List.map_append,
      List.map_singleton, ← h1]
  · show ps.locksHeld ++ _ = ps.respMsgs ++ _
    rw [h2]
  · intro rid hrid
    show (findNode (storeNode ps.cache (freshId ps.respMsgs.length) _) rid).isSome
    rw [findNode_storeNode]
    by_cases hr : rid = freshId ps.respMsgs.length
    · rw [if_pos hr]
      rfl
    · rw [if_neg hr]
      rcases List.mem_append.mp hrid with hm | hm
      · exact h3 rid hm
      · rw [List.mem_singleton] at hm
        exact absurd hm hr

theorem respInv_pipeChunk (maxLen : Nat) (usePlain : Bool) (leafId : Nat)
    (freshId : Nat → Nat) (ps : PipeState) (ck : Chunk) (h : RespInv freshId ps) :
    RespInv freshId (pipeChunk maxLen usePlain leafId freshId ps ck) := by
  unfold pipeChunk
  by_cases hfin : ps.s.finish_reason.isSome
  · rw [if_pos hfin]
    exact h
  · rw [if_neg hfin]
    cases ck with
    | none => exact h
    | some ch =>
      dsimp only
      by_cases hskip : ps.s.response_contents.isEmpty && (newContentOf ps.s ch).isEmpty
      · rw [if_pos hskip]
        exact h
      · rw [if_neg hskip]
        by_cases hstart : !usePlain && startNextMsg maxLen ps.s ch
        · rw [if_pos hstart]
          exact respInv_create freshId { ps with s := ps.s } leafId h
        · rw [if_neg hstart]
          exact h

theorem respInv_foldl (maxLen : Nat) (usePlain : Bool) (leafId : Nat)
    (freshId : Nat → Nat) :
    ∀ (cks : List Chunk) (ps : PipeState), RespInv freshId ps →
      RespInv freshId (cks.foldl (pipeChunk maxLen usePlain leafId freshId) ps) := by
  intro cks
  induction cks with
  | nil => intro ps h; exact h
  | cons ck cks ih =>
    intro ps h
    rw [List.foldl_cons]
    exact ih _ (respInv_pipeChunk maxLen usePlain leafId freshId ps ck h)

theorem respInv_plainSends (leafId : Nat) (freshId : Nat → Nat) :
    ∀ (n : Nat) (ps : PipeState), RespInv freshId ps →
      RespInv freshId (plainSends leafId freshId n ps) := by
  intro n
  induction n with
  | zero => intro ps h; exact h
  | succ n ih =>
    intro ps h
    exact ih _ (respInv_create freshId ps leafId h)

theorem findNode_finalizeAux_not_mem (txt : String) :
    ∀ (rids : List Nat) (c : Cache) (l : List Nat) (rid : Nat), rid ∉ rids →
      findNode (finalizeAux txt rids c l).1 rid = findNode c rid := by
  intro rids
  induction rids with
  | nil => intro c l rid _; rfl
  | cons r rids ih =>
    intro c l rid hmem
    have hne : rid ≠ r := fun hx => hmem (hx ▸ List.mem_cons_self _ _)
    unfold finalizeAux
    rw [ih _ _ rid (fun hx => hmem (List.mem_cons_of_mem _ hx)), findNode_storeNode,
      if_neg hne]

theorem finalizeAux_spec (txt : String) :
    ∀ (rids : List Nat) (c : Cache), rids.Nodup →
      (finalizeAux txt rids c rids).2 = [] ∧
      ∀ rid ∈ rids, ∃ n, findNode (finalizeAux txt rids c rids).1 rid = some n ∧
        n.text = some txt := by
  intro rids
  induction rids with
  | nil =>
    intro c _
    exact ⟨rfl, fun rid hrid => absurd hrid (List.not_mem_nil rid)⟩
  | cons r rids ih =>
    intro c hnd
    have hnd' := List.nodup_cons.mp hnd
    have herase : (r :: rids).erase r = rids := List.erase_cons_head r rids
    unfold finalizeAux
    rw [herase]
    obtain ⟨htail, hset⟩ := ih
      (storeNode c r { ((findNode c r).getD {}) with text := some txt }) hnd'.2
    refine ⟨htail, ?_⟩
    intro rid hrid
    rcases List.mem_cons.mp hrid with hrid | hrid
    · subst hrid
      rw [findNode_finalizeAux_not_mem txt rids _ _ rid hnd'.1, findNode_storeNode,
        if_pos rfl]
      exact ⟨_, rfl, rfl⟩
    · exact hset rid hrid

theorem finalize_spec (ps : PipeState) (hnd : ps.respMsgs.Nodup)
    (hl : ps.locksHeld = ps.respMsgs) :
    (finalize ps).locksHeld = [] ∧
    ∀ rid ∈ (finalize ps).respMsgs, ∃ n, findNode (finalize ps).cache rid = some n ∧
      n.text = some (String.join (finalize ps).s.response_contents) := by
  unfold finalize
  rw [hl]
  obtain ⟨h1, h2⟩ := finalizeAux_spec (String.join ps.s.response_contents) ps.respMsgs
    ps.cache hnd
  exact ⟨h1, h2⟩

theorem respInv_streamPhase (maxLen : Nat) (usePlain : Bool) (leafId : Nat)
    (freshId : Nat → Nat) (cks : List Chunk) (fault : PipelineFault) :
    RespInv freshId (streamPhase maxLen usePlain leafId freshId cks fault) := by
  have hinv0 : RespInv freshId {} :=
    ⟨rfl, rfl, fun rid hrid => absurd hrid (List.not_mem_nil rid)⟩
  unfold streamPhase
  cases fault <;> exact respInv_foldl maxLen usePlain leafId freshId _ {} hinv0

theorem respInv_reasonPhase (freshId : Nat → Nat) (fault : PipelineFault) (ps : PipeState)
    (h : RespInv freshId ps) : RespInv freshId (reasonPhase fault ps) := by
  have hsame : RespInv freshId
      (if ps.s.reasoning_contents.isEmpty then ps
        else { ps with s := { ps.s with response_contents :=
          ps.s.response_contents ++ ["Reasoning:\n" ++ ps.s.reasoning_contents] } }) := by
    by_cases hre : ps.s.reasoning_contents.isEmpty
    · rw [if_pos hre]
      exact h
    · rw [if_neg hre]
      exact h
  unfold reasonPhase
  cases fault <;> first | exact h | exact hsame

theorem respInv_plainPhase (usePlain : Bool) (leafId : Nat) (freshId : Nat → Nat)
    (fault : PipelineFault) (ps : PipeState) (h : RespInv freshId ps) :
    RespInv freshId (plainPhase usePlain leafId freshId fault ps) := by
  unfold plainPhase
  by_cases hup : usePlain
  · rw [if_pos hup]
    cases fault <;> first
      | exact h
      | exact respInv_plainSends leafId freshId _ ps h
  · rw [if_neg hup]
    exact h

/-- C5: however the pipeline ends — clean finish, backend error mid-stream,
failed reasoning flush, or failed plain send — every node created for an
outgoing response message ends with `text` set to the concatenation of all
segments and its lock released; no pipeline-acquired lock stays held. -/
theorem response_locks_released (maxLen : Nat) (usePlain : Bool) (leafId : Nat)
    (freshId : Nat → Nat) (hinj : Function.Injective freshId)
    (cks : List Chunk) (fault : PipelineFault) :
    (pipeline maxLen usePlain leafId freshId cks fault).locksHeld = [] ∧
    ∀ rid ∈ (pipeline maxLen usePlain leafId freshId cks fault).respMsgs,
      ∃ n, findNode (pipeline maxLen usePlain leafId freshId cks fault).cache rid = some n ∧
        n.text = some (String.join
          (pipeline maxLen usePlain leafId freshId cks fault).s.response_contents) := by
  have hinv3 : RespInv freshId (plainPhase usePlain leafId freshId fault
      (reasonPhase fault (streamPhase maxLen usePlain leafId freshId cks fault))) :=
    respInv_plainPhase usePlain leafId freshId fault _
      (respInv_reasonPhase freshId fault _
        (respInv_streamPhase maxLen usePlain leafId freshId cks fault))
  have hnd : (plainPhase usePlain leafId freshId fault
      (reasonPhase fault
        (streamPhase maxLen usePlain leafId freshId cks fault))).respMsgs.Nodup := by
    rw [hinv3.1]
    exact List.Nodup.map hinj (List.nodup_range _)
  unfold pipeline
  exact finalize_spec _ hnd hinv3.2.1

def freshId100 : Nat → Nat := fun i => 100 + i

theorem freshId100_inj : Function.Injective freshId100 := by
  intro a b hab
  unfold freshId100 at hab
  omega

def c5Chunks : List Chunk :=
  [some { content := "hello" }, some { finish_reason := some "stop", reasoning := "r" }]

/-- Witness for C5: an embed-mode run creating one response node, aborted at
the reasoning flush; the node ends unlocked with the full text (content plus
reasoning segment). -/
theorem response_locks_released_witness :
    Function.Injective freshId100 ∧
    ((pipeline (max_message_length false) false 7 freshId100 c5Chunks
        PipelineFault.afterReasonAppend).locksHeld = [] ∧
      ∀ rid ∈ (pipeline (max_message_length false) false 7 freshId100 c5Chunks
          PipelineFault.afterReasonAppend).respMsgs,
        ∃ n, findNode (pipeline (max_message_length false) false 7 freshId100 c5Chunks
            PipelineFault.afterReasonAppend).cache rid = some n ∧
          n.text = some (String.join (pipeline (max_message_length false) false 7 freshId100
            c5Chunks PipelineFault.afterReasonAppend).s.response_contents)) ∧
    (pipeline (max_message_length false) false 7 freshId100 c5Chunks
      PipelineFault.afterReasonAppend).respMsgs = [100] ∧
    (pipeline (max_message_length false) false 7 freshId100 c5Chunks
        PipelineFault.afterReasonAppend).s.response_contents = ["hello", "Reasoning:\nr"] :=
  ⟨freshId100_inj,
    response_locks_released (max_message_length false) false 7 freshId100 freshId100_inj
      c5Chunks PipelineFault.afterReasonAppend,
    by decide, by decide⟩

/-! ### Claim C8: idempotence of the walk on a fully-populated cache -/

/-- `setdefault` is the identity when the key is present. -/
theorem setdefault_mem (c : Cache) (k : Nat) (n : MsgNode) (hfind : findNode c k = some n) :
    setdefault c k = c := by
  unfold setdefault
  rw [hfind]

theorem stepNode_populated (env : Env) (cid : Nat) (c : Cache) (n : MsgNode)
    (hfind : findNode c cid = some n) (htext : n.text ≠ none) :
    stepNode env cid c = n := by
  unfold stepNode
  rw [setdefault_mem c cid n hfind, hfind]
  show (if n.text = none then populate env cid else n) = n
  rw [if_neg htext]

/-- A populated node's walk step: no cache change, no population, the turn
and warnings from the cached values, advance to the cached parent. -/
theorem walkStep_populated (env : Env) (p : WalkParams) (cid : Nat) (st : WalkState)
    (n : MsgNode) (hfind : findNode st.cache cid = some n) (htext : n.text ≠ none) :
    (walkStep env p cid st).1.cache = st.cache ∧
    (walkStep env p cid st).1.popCount = st.popCount ∧
    (walkStep env p cid st).2 = n.parent_msg ∧
    (walkStep env p cid st).1.messages.length
      = st.messages.length + (if stepHasContent p n then 1 else 0) := by
  have hsd : setdefault st.cache cid = st.cache := setdefault_mem st.cache cid n hfind
  have hnode : stepNode env cid st.cache = n := stepNode_populated env cid st.cache n hfind htext
  have hpop : ¬ (((findNode st.cache cid).getD {}).text = none) := by
    rw [hfind]
    exact htext
  rw [walkStep_eq]
  dsimp only
  rw [hnode, hsd, if_neg hpop, if_neg hpop]
  refine ⟨rfl, by simp, rfl, ?_⟩
  by_cases hc : stepHasContent p n
  · simp [hc]
  · simp [hc]

/-- No node on the walk path (within `fuel` iterations, stopping at
`max_messages` turns) is absent or unpopulated. -/
def pathReady (p : WalkParams) (c : Cache) : Nat → Option Nat → Nat → Bool
  | _, none, _ => true
  | 0, some _, count => decide (p.maxMessages ≤ count)
  | fuel + 1, some cid, count =>
    if p.maxMessages ≤ count then true
    else
      match findNode c cid with
      | none => false
      | some n =>
        n.text.isSome &&
          pathReady p c fuel n.parent_msg (count + if stepHasContent p n then 1 else 0)

theorem walkAux_ready (env : Env) (p : WalkParams) :
    ∀ (fuel : Nat) (curr : Option Nat) (st : WalkState),
      pathReady p st.cache fuel curr st.messages.length = true →
      ∃ r, walkAux env p fuel curr st = some r ∧
        r.cache = st.cache ∧ r.popCount = st.popCount := by
  intro fuel
  induction fuel with
  | zero =>
    intro curr st hready
    cases curr with
    | none => exact ⟨st, rfl, rfl, rfl⟩
    | some cid =>
      have hc : p.maxMessages ≤ st.messages.length := by
        simpa [pathReady] using hready
      refine ⟨st, ?_, rfl, rfl⟩
      show (if st.messages.length < p.maxMessages then none else some st) = some st
      rw [if_neg (Nat.not_lt.mpr hc)]
  | succ fuel ih =>
    intro curr st hready
    cases curr with
    | none => exact ⟨st, rfl, rfl, rfl⟩
    | some cid =>
      by_cases hmax : p.maxMessages ≤ st.messages.length
      · refine ⟨st, ?_, rfl, rfl⟩
        show (if st.messages.length < p.maxMessages then
            let r := walkStep env p cid st
            walkAux env p fuel r.2 r.1
          else some st) = some st
        rw [if_neg (Nat.not_lt.mpr hmax)]
      · have hready' : (match findNode st.cache cid with
            | none => false
            | some n => n.text.isSome &&
                pathReady p st.cache fuel n.parent_msg
                  (st.messages.length + if stepHasContent p n then 1 else 0)) = true := by
          have : pathReady p st.cache (fuel + 1) (some cid) st.messages.length = true := hready
          unfold pathReady at this
          rw [if_neg hmax] at this
          exact this
        cases hfind : findNode st.cache cid with
        | none =>
          rw [hfind] at hready'
          cases hready'
        | some n =>
          rw [hfind] at hready'
          rw [Bool.and_eq_true] at hready'
          obtain ⟨htext, hrest⟩ := hready'
          have htext' : n.text ≠ none := by
            intro hx
            rw [hx] at htext
            cases htext
          obtain ⟨hcache, hpop, hparent, hlen⟩ :=
            walkStep_populated env p cid st n hfind htext'
          obtain ⟨r, hr, hrc, hrp⟩ := ih (walkStep env p cid st).2 (walkStep env p cid st).1
            (by rw [hcache, hparent, hlen]; exact hrest)
          refine ⟨r, ?_, by rw [hrc, hcache], by rw [hrp, hpop]⟩
          show (if st.messages.length < p.maxMessages then
              let q := walkStep env p cid st
              walkAux env p fuel q.2 q.1
            else some st) = some r
          rw [if_pos (Nat.lt_of_not_le hmax)]
          exact hr

/-- C8: against a cache whose nodes along the walk path are all populated,
the walk completes with the cache unchanged and zero population work; and
since it leaves the cache unchanged, re-running it from the resulting cache
returns the very same result — byte-identical turns and warnings. -/
theorem walk_idempotent_on_populated (env : Env) (p : WalkParams) (fuel leaf : Nat)
    (c : Cache) (hready : pathReady p c fuel (some leaf) 0 = true) :
    ∃ r, buildHistory env p fuel leaf c = some r ∧
      r.cache = c ∧ r.popCount = 0 ∧
      buildHistory env p fuel leaf r.cache = some r := by
  obtain ⟨r, hr, hrc, hrp⟩ := walkAux_ready env p fuel (some leaf) (initWalkState c) hready
  exact ⟨r, hr, hrc, hrp, by rw [hrc]; exact hr⟩

/-- A fully populated two-message cache for the A/B scenario. -/
def cacheAB : Cache :=
  [(2, { text := some "B", role := .user, parent_msg := some 1 }),
   (1, { text := some "A", role := .user })]

/-- Witness for C8: both runs return the same result with no population. -/
theorem walk_idempotent_on_populated_witness :
    pathReady pAB cacheAB 10 (some 2) 0 = true ∧
    (∃ r, buildHistory envAB pAB 10 2 cacheAB = some r ∧
      r.cache = cacheAB ∧ r.popCount = 0 ∧
      buildHistory envAB pAB 10 2 r.cache = some r) ∧
    (buildHistory envAB pAB 10 2 cacheAB).map
      (fun r => (r.srcIds, r.popCount, r.cache == cacheAB)) = some ([2, 1], 0, true) :=
  ⟨by decide, walk_idempotent_on_populated envAB pAB 10 2 cacheAB (by decide), by decide⟩

/-! ### Claim C1: single population under the node's lock

`N` logically concurrent chain walks reach the same previously-unseen
message key.  Each executes lines 340-431: `msg_nodes.setdefault` hands all
of them the one shared node object, then `async with curr_node.lock:` and,
inside the lock, `if curr_node.text == None:` populate.  Population itself
suspends (attachment fetches, parent fetch), so a walker is modelled as a
four-phase process: waiting to acquire the lock, having acquired it and
about to read `text`, populating (the suspension window, still holding the
lock), and done.  Every read or write of this node's fields in the source
happens while holding the node's lock, so these phases cover all
interleavings with respect to this node.  The scheduler is an arbitrary
list of process indices; scheduling a blocked or finished process is a
no-op. -/

inductive PopPC
  | start
  | entered
  | populating
  | done
  deriving DecidableEq

structure PopState (N : Nat) where
  node : MsgNode
  holder : Option (Fin N)
  popCount : Nat
  pcs : Fin N → PopPC
  obs : Fin N → Option MsgNode

def initPopState (N : Nat) : PopState N :=
  { node := {}, holder := none, popCount := 0,
    pcs := fun _ => .start, obs := fun _ => none }

/-- One scheduled step of walker `i`. -/
def popStep (env : Env) (cid : Nat) (N : Nat) (st : PopState N) (i : Fin N) : PopState N :=
  match st.pcs i with
  | .start =>
    match st.holder with
    | some _ => st
    | none =>
      { st with
        holder := some i,
        pcs := Function.update st.pcs i .entered }
  | .entered =>
    if st.node.text = none then
      { st with pcs := Function.update st.pcs i .populating }
    else
      { st with
        obs := Function.update st.obs i (some st.node),
        holder := none,
        pcs := Function.update st.pcs i .done }
  | .populating =>
    { st with
      node := populate env cid,
      popCount := st.popCount + 1,
      obs := Function.update st.obs i (some (populate env cid)),
      holder := none,
      pcs := Function.update st.pcs i .done }
  | .done => st

def runPop (env : Env) (cid : Nat) (N : Nat) (sched : List (Fin N)) : PopState N :=
  sched.foldl (popStep env cid N) (initPopState N)

theorem populate_text_ne (env : Env) (cid : Nat) : (populate env cid).text ≠ none := by
  unfold populate
  intro hx
  cases hx

theorem popStep_blocked (env : Env) (cid : Nat) (N : Nat) (st : PopState N) (i j : Fin N)
    (hpc : st.pcs i = .start) (hh : st.holder = some j) :
    popStep env cid N st i = st := by
  unfold popStep
  rw [hpc, hh]

theorem popStep_acquire (env : Env) (cid : Nat) (N : Nat) (st : PopState N) (i : Fin N)
    (hpc : st.pcs i = .start) (hh : st.holder = none) :
    popStep env cid N st i =
      { st with
        holder := some i,
        pcs := Function.update st.pcs i .entered } := by
  unfold popStep
  rw [hpc, hh]

theorem popStep_check_empty (env : Env) (cid : Nat) (N : Nat) (st : PopState N) (i : Fin N)
    (hpc : st.pcs i = .entered) (htext : st.node.text = none) :
    popStep env cid N st i = { st with pcs := Function.update st.pcs i .populating } := by
  unfold popStep
  rw [hpc, if_pos htext]

theorem popStep_check_full (env : Env) (cid : Nat) (N : Nat) (st : PopState N) (i : Fin N)
    (hpc : st.pcs i = .entered) (htext : ¬ st.node.text = none) :
    popStep env cid N st i =
      { st with
        obs := Function.update st.obs i (some st.node),
        holder := none,
        pcs := Function.update st.pcs i .done } := by
  unfold popStep
  rw [hpc, if_neg htext]

theorem popStep_write (env : Env) (cid : Nat) (N : Nat) (st : PopState N) (i : Fin N)
    (hpc : st.pcs i = .populating) :
    popStep env cid N st i =
      { st with
        node := populate env cid,
        popCount := st.popCount + 1,
        obs := Function.update st.obs i (some (populate env cid)),
        holder := none,
        pcs := Function.update st.pcs i .done } := by
  unfold popStep
  rw [hpc]

theorem popStep_done (env : Env) (cid : Nat) (N : Nat) (st : PopState N) (i : Fin N)
    (hpc : st.pcs i = .done) :
    popStep env cid N st i = st := by
  unfold popStep
  rw [hpc]

/-- The protocol invariant: lock-holding matches being inside the critical
section; a populating walker saw `text = None` and still holds the lock, so
the node is still empty; the node is either untouched or populated exactly
once; observations only ever see the populated value. -/
structure PopInv (env : Env) (cid : Nat) (N : Nat) (st : PopState N) : Prop where
  holder_of_crit : ∀ i, st.pcs i = .entered ∨ st.pcs i = .populating → st.holder = some i
  crit_of_holder : ∀ i, st.holder = some i → st.pcs i = .entered ∨ st.pcs i = .populating
  populating_text : ∀ i, st.pcs i = .populating → st.node.text = none
  node_cases : (st.node.text = none ∧ st.popCount = 0) ∨
    (st.node = populate env cid ∧ st.popCount = 1)
  obs_eq : ∀ i v, st.obs i = some v → v = populate env cid
  done_obs : ∀ i, st.pcs i = .done → st.obs i ≠ none
  done_pop : ∀ i, st.pcs i = .done → st.popCount = 1

theorem popInv_init (env : Env) (cid : Nat) (N : Nat) :
    PopInv env cid N (initPopState N) := by
  constructor
  · intro i hi
    rcases hi with hi | hi <;> cases hi
  · intro i hi
    cases hi
  · intro i hi
    cases hi
  · exact Or.inl ⟨rfl, rfl⟩
  · intro i v hv
    cases hv
  · intro i hi
    cases hi
  · intro i hi
    cases hi

theorem popInv_step (env : Env) (cid : Nat) (N : Nat) (st : PopState N) (i : Fin N)
    (h : PopInv env cid N st) : PopInv env cid N (popStep env cid N st i) := by
  cases hpc : st.pcs i with
  | start =>
    cases hh : st.holder with
    | some j =>
      rw [popStep_blocked env cid N st i j hpc hh]
      exact h
    | none =>
      rw [popStep_acquire env cid N st i hpc hh]
      constructor
      · intro k hk
        by_cases hik : k = i
        · subst hik
          rfl
        · have hk' : st.pcs k = .entered ∨ st.pcs k = .populating := by
            simpa [Function.update_noteq hik] using hk
          have h1 := h.holder_of_crit k hk'
          rw [hh] at h1
          cases h1
      · intro k hk
        have hik : i = k := Option.some.inj (by simpa using hk)
        subst hik
        left
        simp
      · intro k hk
        by_cases hik : k = i
        · subst hik
          simp at hk
        · have hk' : st.pcs k = .populating := by
            simpa [Function.update_noteq hik] using hk
          exact h.populating_text k hk'
      · exact h.node_cases
      · exact h.obs_eq
      · intro k hk
        by_cases hik : k = i
        · subst hik
          simp at hk
        · have hk' : st.pcs k = .done := by
            simpa [Function.update_noteq hik] using hk
          exact h.done_obs k hk'
      · intro k hk
        by_cases hik : k = i
        · subst hik
          simp at hk
        · have hk' : st.pcs k = .done := by
            simpa [Function.update_noteq hik] using hk
          exact h.done_pop k hk'
  | entered =>
    have hhold : st.holder = some i := h.holder_of_crit i (Or.inl hpc)
    by_cases htext : st.node.text = none
    · rw [popStep_check_empty env cid N st i hpc htext]
      constructor
      · intro k hk
        by_cases hik : k = i
        · subst hik
          exact hhold
        · have hk' : st.pcs k = .entered ∨ st.pcs k = .populating := by
            simpa [Function.update_noteq hik] using hk
          exact h.holder_of_crit k hk'
      · intro k hk
        have hk2 : st.holder = some k := by simpa using hk
        have hik : i = k := Option.some.inj (hhold.symm.trans hk2)
        subst hik
        right
        simp
      · intro k hk
        exact htext
      · exact h.node_cases
      · exact h.obs_eq
      · intro k hk
        by_cases hik : k = i
        · subst hik
          simp at hk
        · have hk' : st.pcs k = .done := by
            simpa [Function.update_noteq hik] using hk
          exact h.done_obs k hk'
      · intro k hk
        by_cases hik : k = i
        · subst hik
          simp at hk
        · have hk' : st.pcs k = .done := by
            simpa [Function.update_noteq hik] using hk
          exact h.done_pop k hk'
    · rw [popStep_check_full env cid N st i hpc htext]
      have hnode : st.node = populate env cid ∧ st.popCount = 1 := by
        rcases h.node_cases with ⟨h1, _⟩ | h1
        · exact absurd h1 htext
        · exact h1
      constructor
      · intro k hk
        by_cases hik : k = i
        · subst hik
          simp at hk
        · have hk' : st.pcs k = .entered ∨ st.pcs k = .populating := by
            simpa [Function.update_noteq hik] using hk
          have h1 := h.holder_of_crit k hk'
          rw [hhold] at h1
          exact absurd (Option.some.inj h1).symm hik
      · intro k hk
        simp at hk
      · intro k hk
        by_cases hik : k = i
        · subst hik
          simp at hk
        · have hk' : st.pcs k = .populating := by
            simpa [Function.update_noteq hik] using hk
          have h1 := h.holder_of_crit k (Or.inr hk')
          rw [hhold] at h1
          exact absurd (Option.some.inj h1).symm hik
      · exact h.node_cases
      · intro k v hv
        by_cases hik : k = i
        · subst hik
          have hv2 : some st.node = some v := by simpa using hv
          rw [← Option.some.inj hv2, hnode.1]
        · have hv2 : st.obs k = some v := by
            simpa [Function.update_noteq hik] using hv
          exact h.obs_eq k v hv2
      · intro k hk
        by_cases hik : k = i
        · subst hik
          simp
        · have hk' : st.pcs k = .done := by
            simpa [Function.update_noteq hik] using hk
          have h1 := h.done_obs k hk'
          simpa [Function.update_noteq hik] using h1
      · intro k hk
        exact hnode.2
  | populating =>
    have hhold : st.holder = some i := h.holder_of_crit i (Or.inr hpc)
    have htext : st.node.text = none := h.populating_text i hpc
    have hpop0 : st.popCount = 0 := by
      rcases h.node_cases with ⟨_, h1⟩ | ⟨h1, _⟩
      · exact h1
      · rw [h1] at htext
        exact absurd htext (populate_text_ne env cid)
    rw [popStep_write env cid N st i hpc]
    constructor
    · intro k hk
      by_cases hik : k = i
      · subst hik
        simp at hk
      · have hk' : st.pcs k = .entered ∨ st.pcs k = .populating := by
          simpa [Function.update_noteq hik] using hk
        have h1 := h.holder_of_crit k hk'
        rw [hhold] at h1
        exact absurd (Option.some.inj h1).symm hik
    · intro k hk
      simp at hk
    · intro k hk
      by_cases hik : k = i
      · subst hik
        simp at hk
      · have hk' : st.pcs k = .populating := by
          simpa [Function.update_noteq hik] using hk
        have h1 := h.holder_of_crit k (Or.inr hk')
        rw [hhold] at h1
        exact absurd (Option.some.inj h1).symm hik
    · right
      refine ⟨rfl, ?_⟩
      show st.popCount + 1 = 1
      rw [hpop0]
    · intro k v hv
      by_cases hik : k = i
      · subst hik
        have hv2 : some (populate env cid) = some v := by simpa using hv
        exact (Option.some.inj hv2).symm
      · have hv2 : st.obs k = some v := by
          simpa [Function.update_noteq hik] using hv
        exact h.obs_eq k v hv2
    · intro k hk
      by_cases hik : k = i
      · subst hik
        simp
      · have hk' : st.pcs k = .done := by
          simpa [Function.update_noteq hik] using hk
        have h1 := h.done_obs k hk'
        simpa [Function.update_noteq hik] using h1
    · intro k hk
      show st.popCount + 1 = 1
      rw [hpop0]
  | done =>
    rw [popStep_done env cid N st i hpc]
    exact h

theorem popInv_run (env : Env) (cid : Nat) (N : Nat) (sched : List (Fin N)) :
    PopInv env cid N (runPop env cid N sched) := by
  unfold runPop
  have hgen : ∀ (l : List (Fin N)) (st : PopState N), PopInv env cid N st →
      PopInv env cid N (l.foldl (popStep env cid N) st) := by
    intro l
    induction l with
    | nil =>
      intro st hst
      exact hst
    | cons a l ih =>
      intro st hst
      rw [List.foldl_cons]
      exact ih _ (popInv_step env cid N st a hst)
  exact hgen sched _ (popInv_init env cid N)

/-- C1: for `N` concurrent chain walks on the same previously-unseen key,
under any schedule after which every walker has finished its critical
section, the population routine ran exactly once and every walker observed
the same populated field values. -/
theorem single_population (env : Env) (cid : Nat) (N : Nat) (hN : 0 < N)
    (sched : List (Fin N)) (hdone : ∀ i, (runPop env cid N sched).pcs i = .done) :
    (runPop env cid N sched).popCount = 1 ∧
    ∀ i, (runPop env cid N sched).obs i = some (populate env cid) := by
  have hinv := popInv_run env cid N sched
  refine ⟨hinv.done_pop ⟨0, hN⟩ (hdone ⟨0, hN⟩), ?_⟩
  intro i
  cases hobs : (runPop env cid N sched).obs i with
  | none => exact absurd hobs (hinv.done_obs i (hdone i))
  | some v => rw [hinv.obs_eq i v hobs]

/-- A schedule where walker 0 acquires, checks, populates through its
suspension, and only then walker 1 gets the lock and observes. -/
def schedPop : List (Fin 2) := [0, 1, 0, 0, 1, 1]

def envPop : Env := fun _ => { cleanedContent := "w" }

/-- Witness for C1 with two walkers: one population, identical observations
(walker 1's first scheduled slot finds the lock held and blocks). -/
theorem single_population_witness :
    (0 < 2 ∧ ∀ i, (runPop envPop 9 2 schedPop).pcs i = PopPC.done) ∧
    ((runPop envPop 9 2 schedPop).popCount = 1 ∧
      ∀ i, (runPop envPop 9 2 schedPop).obs i = some (populate envPop 9)) :=
  ⟨⟨by omega, by decide⟩,
    single_population envPop 9 2 (by omega) schedPop (by decide)⟩

end Kuyari
